import Mathlib

/-!
Verification of the atlas editing core (`src/atlas-engine`): a shallow
embedding of `buffer.rs`, `cursor.rs` and `multi_cursor.rs` over `List Char`.

Modelling conventions:
* The `ropey::Rope` content is a `List Char`; character offsets are list
  indices.  `len_chars`, `len_lines`, `line_to_char`, `char_to_line` follow
  ropey's LF-based line indexing (`len_lines = count of newlines + 1`, line
  `l` starts right after the `l`-th newline, the newline terminating a line
  belongs to that line).
* Every `assert!` / `assert_eq!` in the Rust source (and ropey's own
  out-of-range panics, and debug-mode `usize` underflow) is modelled as the
  operation returning `none`; `some` means the operation returns normally.
* Grapheme segmentation comes from the external `unicode_segmentation`
  crate, which is not part of this repository.  It is modelled by a
  pairwise boundary rule faithful to UAX #29 on the character set exercised
  here: there is a cluster break between adjacent characters `a b` unless
  `b` is a combining mark (U+0300..U+036F) or `a b` is the CRLF pair; a
  break always follows a line break character otherwise.
-/

/-- Combining diacritical marks U+0300..U+036F, the representative class of
grapheme-extending characters used in this development. -/
def isCombiningChar (c : Char) : Bool := decide (0x300 ≤ c.toNat ∧ c.toNat ≤ 0x36F)

/-- Pairwise extended-grapheme-cluster boundary rule (model of
`unicode_segmentation`): no break inside CRLF, always a break after a lone
CR or LF, otherwise a break unless the right character is combining. -/
def graphemeBreak (a b : Char) : Bool :=
  if a = '\r' ∧ b = '\n' then false
  else if a = '\n' ∨ a = '\r' then true
  else !(isCombiningChar b)

/-- Helper for `graphemeClusters`: given a first character `c` and the rest
of the text, return the cluster containing `c` and the remaining clusters. -/
def gcAux (c : Char) : List Char → List Char × List (List Char)
  | [] => ([c], [])
  | d :: rest =>
    let r := gcAux d rest
    if graphemeBreak c d then ([c], r.1 :: r.2) else (c :: r.1, r.2)

/-- Segmentation of a character list into extended grapheme clusters
(model of `str::graphemes(true)` / `grapheme_indices(true)`). -/
def graphemeClusters : List Char → List (List Char)
  | [] => []
  | c :: rest => (gcAux c rest).1 :: (gcAux c rest).2

/-- Number of `'\n'` characters, the quantity ropey's line bookkeeping is
built on. -/
def countNl (cs : List Char) : Nat := cs.countP (fun c => decide (c = '\n'))

/-- Char index of the start of line `n`: the length of the shortest prefix
containing `n` newlines (saturating at the end of the text).  Model of
ropey's `line_to_char`. -/
def lineStartIdx : List Char → Nat → Nat
  | _, 0 => 0
  | [], _ + 1 => 0
  | c :: rest, n + 1 =>
    1 + (if c = '\n' then lineStartIdx rest n else lineStartIdx rest (n + 1))

/-- Model of `str::trim_end_matches(['\r', '\n'])`: drop every trailing
carriage return / line feed. -/
def dropTrailingBreaks (xs : List Char) : List Char :=
  (xs.reverse.dropWhile (fun c => c == '\r' || c == '\n')).reverse

/-- `Buffer` from `buffer.rs`: rope content plus a display name. -/
structure Buffer where
  content : List Char
  name : String
deriving DecidableEq

/-- ropey `Rope::len_chars`. -/
def Buffer.len_chars (b : Buffer) : Nat := b.content.length

/-- ropey `Rope::len_lines` (LF-based: number of newlines plus one). -/
def Buffer.len_lines (b : Buffer) : Nat := countNl b.content + 1

/-- ropey `Rope::line_to_char`. -/
def Buffer.line_to_char (b : Buffer) (l : Nat) : Nat := lineStartIdx b.content l

/-- ropey `Rope::char_to_line`: the line containing the given char offset,
i.e. the number of newlines strictly before it. -/
def Buffer.char_to_line (b : Buffer) (o : Nat) : Nat := countNl (b.content.take o)

/-- `Buffer::visible_line_content`: the text of line `l` (which in ropey
runs up to and including its `'\n'` terminator) with trailing `'\r'` and
`'\n'` characters stripped. -/
def Buffer.visible_line_content (b : Buffer) (l : Nat) : List Char :=
  dropTrailingBreaks ((b.content.drop (b.line_to_char l)).takeWhile (fun c => !(c == '\n')))

/-- `Buffer::grapheme_len`: number of grapheme clusters in the visible part
of line `l`. -/
def Buffer.grapheme_len (b : Buffer) (l : Nat) : Nat :=
  (graphemeClusters (b.visible_line_content l)).length

/-- `Buffer::grapheme_col_to_offset`: line start plus the total char count
of the first `col` grapheme clusters of the visible line.  The `assert!`s
guarding `line` and `col` are modelled as `none`/hypotheses at call sites. -/
def Buffer.grapheme_col_to_offset (b : Buffer) (l col : Nat) : Nat :=
  b.line_to_char l + (((graphemeClusters (b.visible_line_content l)).take col).map List.length).sum

/-- `Buffer::prev_grapheme_offset`: char index of the start of the last
grapheme cluster of the prefix ending at `o` (0 at the buffer start).  The
byte/char conversions of the source cancel because cluster boundaries are
char boundaries. -/
def Buffer.prev_grapheme_offset (b : Buffer) (o : Nat) : Nat :=
  if o = 0 then 0
  else (b.content.take o).length - ((graphemeClusters (b.content.take o)).getLastD []).length

/-- `Buffer::next_grapheme_offset`: `o` plus the char length of the first
grapheme cluster of the suffix starting at `o`, saturating at the end. -/
def Buffer.next_grapheme_offset (b : Buffer) (o : Nat) : Nat :=
  if b.len_chars ≤ o then b.len_chars
  else o + ((graphemeClusters (b.content.drop o)).headD []).length

/-- `TextPosition` from `cursor.rs`. -/
structure TextPosition where
  line : Nat
  col : Nat
  offset : Nat
deriving DecidableEq

/-- `Buffer::validate_position` as a boolean: true exactly when all of the
source's assertions (including the `assert!`s inside the
`grapheme_col_to_offset` call it makes) pass. -/
def Buffer.validate_position (b : Buffer) (p : TextPosition) : Bool :=
  decide (p.line < b.len_lines) && decide (p.offset ≤ b.len_chars) &&
    decide (p.col ≤ b.grapheme_len p.line) &&
    decide (p.offset = b.grapheme_col_to_offset p.line p.col)

/-- `Cursor` from `cursor.rs`. -/
structure Cursor where
  anchor : TextPosition
  active : TextPosition
  preferred_column : Option Nat
deriving DecidableEq

/-- `Cursor::new`. -/
def Cursor.new : Cursor := ⟨⟨0, 0, 0⟩, ⟨0, 0, 0⟩, none⟩

/-- `Cursor::position`. -/
def Cursor.position (c : Cursor) : TextPosition := c.active

/-- `EditorMode` from `lib.rs`. -/
inductive EditorMode
  | Normal
  | Insert
  | Visual
deriving DecidableEq

/-- `MoveOpts` from `cursor.rs`. -/
structure MoveOpts where
  anchor : Option TextPosition
  update_preferred_col : Bool

/-- `Cursor::move_to`.  `none` models the panic of a failed
`validate_position` assertion; on success it returns the updated cursor
together with the (clamped) destination the source returns. -/
def Cursor.move_to (c : Cursor) (dest : TextPosition) (opts : MoveOpts) (b : Buffer) :
    Option (Cursor × TextPosition) :=
  if b.validate_position dest = false then none
  else
    let line := min dest.line (b.len_lines - 1)
    let col := min dest.col (b.grapheme_len line)
    let off := b.grapheme_col_to_offset line col
    let dest' : TextPosition := ⟨line, col, off⟩
    if b.validate_position dest' = false then none
    else
      some ({ anchor := opts.anchor.getD dest'
              active := dest'
              preferred_column :=
                if opts.update_preferred_col then some dest'.col else c.preferred_column },
            dest')

/-- `Cursor::get_max_col` (its `self` argument is unused in the source). -/
def Cursor.get_max_col (mode : EditorMode) (b : Buffer) (target : Nat) : Nat :=
  match mode with
  | EditorMode.Normal | EditorMode.Visual =>
    if b.grapheme_len target = 0 then 0 else b.grapheme_len target - 1
  | EditorMode.Insert => b.grapheme_len target

/-- `Cursor::move_left`.  Outer `none` models a panic; `some (c, none)`
models the source's `None` ("no movement"). -/
def Cursor.move_left (c : Cursor) (b : Buffer) (mode : EditorMode) :
    Option (Cursor × Option TextPosition) :=
  let cur := c.active
  if b.validate_position cur = false then none
  else if cur.col = 0 then some (c, none)
  else
    let newCol := cur.col - 1
    let newOff := b.grapheme_col_to_offset cur.line newCol
    let newPos : TextPosition := ⟨cur.line, newCol, newOff⟩
    if b.validate_position newPos = false then none
    else
      match c.move_to newPos
          ⟨if mode = EditorMode.Visual then some c.anchor else none, true⟩ b with
      | none => none
      | some (c', _) => some (c', some newPos)

/-- `Cursor::move_up`. -/
def Cursor.move_up (c : Cursor) (b : Buffer) (mode : EditorMode) :
    Option (Cursor × Option TextPosition) :=
  let cur := c.active
  if b.validate_position cur = false then none
  else if cur.line = 0 then some (c, none)
  else
    let targetLine := cur.line - 1
    let targetCol := c.preferred_column.getD cur.col
    let maxCol := Cursor.get_max_col mode b targetLine
    let newCol := min targetCol maxCol
    let newOff := b.grapheme_col_to_offset targetLine newCol
    let newPos : TextPosition := ⟨cur.line - 1, newCol, newOff⟩
    if b.validate_position newPos = false then none
    else
      match c.move_to newPos
          ⟨if mode = EditorMode.Visual then some c.anchor else none, false⟩ b with
      | none => none
      | some (c', _) => some (c', some newPos)

/-- `Cursor::move_down`. -/
def Cursor.move_down (c : Cursor) (b : Buffer) (mode : EditorMode) :
    Option (Cursor × Option TextPosition) :=
  let cur := c.active
  if b.validate_position cur = false then none
  else if b.len_lines ≤ cur.line + 1 then some (c, none)
  else
    let targetLine := cur.line + 1
    let targetCol := c.preferred_column.getD cur.col
    let maxCol := Cursor.get_max_col mode b targetLine
    let newCol := min targetCol maxCol
    let newOff := b.grapheme_col_to_offset targetLine newCol
    let newPos : TextPosition := ⟨cur.line + 1, newCol, newOff⟩
    if b.validate_position newPos = false then none
    else
      match c.move_to newPos
          ⟨if mode = EditorMode.Visual then some c.anchor else none, false⟩ b with
      | none => none
      | some (c', _) => some (c', some newPos)

/-- `MultiCursor` from `multi_cursor.rs`. -/
structure MultiCursor where
  cursors : List Cursor
  primary_index : Nat
deriving DecidableEq

/-- Indexing into the cursor vector (always in range at the source's call
sites; the default is irrelevant). -/
def MultiCursor.cursorAt (mc : MultiCursor) (i : Nat) : Cursor :=
  mc.cursors.getD i Cursor.new

/-- Stable insertion of index `i` into an index list sorted by
`key` (ascending when `asc`, descending otherwise), placing `i` after
existing indices with an equal key — the order Rust's stable
`sort_by_key` produces. -/
def insertByKey (key : Nat → Nat) (asc : Bool) (i : Nat) : List Nat → List Nat
  | [] => [i]
  | j :: js =>
    if (if asc then key j ≤ key i else key i ≤ key j) then j :: insertByKey key asc i js
    else i :: j :: js

/-- The index ordering of the `multi_cursor_operation!` macro: cursor
indices stably sorted by active offset, ascending or descending. -/
def sortedIndices (mc : MultiCursor) (asc : Bool) : List Nat :=
  (List.range mc.cursors.length).foldl
    (fun acc i => insertByKey (fun j => (mc.cursorAt j).active.offset) asc i acc) []

/-- One iteration of the loop body of
`Buffer::update_cursors_after_modification` for a non-skipped cursor.
Debug-mode `usize` underflow of `offset - deleted_len` and the
`validate_position` assertion are modelled as `none`. -/
def updateOneCursor (b : Buffer) (modOfs : Nat) (delta : Int) (cur : Cursor) : Option Cursor :=
  let p := cur.active
  let shouldUpdate : Bool :=
    if 0 < delta then decide (modOfs ≤ p.offset) else decide (modOfs < p.offset)
  if shouldUpdate = false then some cur
  else
    let newOffset? : Option Nat :=
      if 0 < delta then some (p.offset + delta.toNat)
      else if p.offset < (-delta).toNat then none
      else some (p.offset - (-delta).toNat)
    match newOffset? with
    | none => none
    | some newOffset =>
      let line := b.char_to_line newOffset
      let col := newOffset - b.line_to_char line
      let up : TextPosition := ⟨line, col, newOffset⟩
      if b.validate_position up = false then none
      else (cur.move_to up ⟨none, false⟩ b).map Prod.fst

/-- `Buffer::update_cursors_after_modification`: rebase every cursor except
`skip` (the loop index starts at `i`). -/
def update_cursors_after_modification (b : Buffer) (modOfs : Nat) (delta : Int)
    (skip : Nat) : Nat → List Cursor → Option (List Cursor)
  | _, [] => some []
  | i, cur :: rest =>
    match (if i = skip then some cur else updateOneCursor b modOfs delta cur) with
    | none => none
    | some c' =>
      (update_cursors_after_modification b modOfs delta skip (i + 1) rest).map
        (fun tail => c' :: tail)

/-- Body of `MultiCursor::refresh_positions` for one cursor.  The direct
`grapheme_col_to_offset` call's assertions are modelled by the guard. -/
def refreshOne (b : Buffer) (cur : Cursor) : Option Cursor :=
  let p := cur.active
  if (decide (p.line < b.len_lines) && decide (p.col ≤ b.grapheme_len p.line)) = false then none
  else
    let correct := b.grapheme_col_to_offset p.line p.col
    if p.offset = correct then some cur
    else (cur.move_to ⟨p.line, p.col, correct⟩ ⟨none, false⟩ b).map Prod.fst

/-- `refresh_positions` over the cursor list. -/
def refreshList (b : Buffer) : List Cursor → Option (List Cursor)
  | [] => some []
  | cur :: rest =>
    match refreshOne b cur with
    | none => none
    | some c' => (refreshList b rest).map (fun tail => c' :: tail)

/-- `MultiCursor::refresh_positions`. -/
def MultiCursor.refresh_positions (mc : MultiCursor) (b : Buffer) : Option MultiCursor :=
  (refreshList b mc.cursors).map (fun cl => ⟨cl, mc.primary_index⟩)

/-- Driver of the `multi_cursor_operation!` macro: run `step` once per
index of the pre-computed index list, threading buffer and cursor set. -/
def foldSteps (step : Buffer → MultiCursor → Nat → Option (Buffer × MultiCursor)) :
    Buffer → MultiCursor → List Nat → Option (Buffer × MultiCursor)
  | b, mc, [] => some (b, mc)
  | b, mc, i :: is =>
    match step b mc i with
    | none => none
    | some (b', mc') => foldSteps step b' mc' is

/-- Loop body of `Buffer::insert_char` for one cursor index. -/
def insertCharStep (ch : Char) (b : Buffer) (mc : MultiCursor) (idx : Nat) :
    Option (Buffer × MultiCursor) :=
  let pos := (mc.cursorAt idx).active
  if b.validate_position pos = false then none
  else
    let b' : Buffer := ⟨b.content.take pos.offset ++ ch :: b.content.drop pos.offset, b.name⟩
    let newPos : TextPosition := ⟨pos.line, pos.col + 1, pos.offset + 1⟩
    if b'.validate_position newPos = false then none
    else
      match (mc.cursorAt idx).move_to newPos ⟨none, true⟩ b' with
      | none => none
      | some (c', _) =>
        (update_cursors_after_modification b' pos.offset 1 idx 0 (mc.cursors.set idx c')).map
          (fun cl => (b', ⟨cl, mc.primary_index⟩))

/-- `Buffer::insert_char`: broadcast in ascending offset order. -/
def Buffer.insert_char (b : Buffer) (mc : MultiCursor) (ch : Char) :
    Option (Buffer × MultiCursor) :=
  foldSteps (insertCharStep ch) b mc (sortedIndices mc true)

/-- Loop body of `Buffer::backspace` for one cursor index.  The leading
offset guard models `validate_offset` inside `prev_grapheme_offset` (and
ropey's own range check in `remove`). -/
def backspaceStep (b : Buffer) (mc : MultiCursor) (idx : Nat) :
    Option (Buffer × MultiCursor) :=
  let pos := (mc.cursorAt idx).active
  if pos.offset = 0 then some (b, mc)
  else if b.len_chars < pos.offset then none
  else
    let start := b.prev_grapheme_offset pos.offset
    let deletedLen := pos.offset - start
    let b' : Buffer := ⟨b.content.take start ++ b.content.drop pos.offset, b.name⟩
    let newLine := b'.char_to_line start
    let newCol := start - b'.line_to_char newLine
    let newPos : TextPosition := ⟨newLine, newCol, start⟩
    if b'.validate_position newPos = false then none
    else
      match (mc.cursorAt idx).move_to newPos ⟨none, true⟩ b' with
      | none => none
      | some (c', _) =>
        (update_cursors_after_modification b' start (-(deletedLen : Int)) idx 0
            (mc.cursors.set idx c')).map
          (fun cl => (b', ⟨cl, mc.primary_index⟩))

/-- `Buffer::backspace`: broadcast in descending offset order, then
`refresh_positions`. -/
def Buffer.backspace (b : Buffer) (mc : MultiCursor) : Option (Buffer × MultiCursor) :=
  match foldSteps backspaceStep b mc (sortedIndices mc false) with
  | none => none
  | some (b', mc') => (mc'.refresh_positions b').map (fun mc'' => (b', mc''))

/-- Loop body of `Buffer::delete` for one cursor index: remove the grapheme
cluster at the cursor (a zero-length span at the buffer end) and rebase the
other cursors; the edited cursor itself is not moved. -/
def deleteStep (b : Buffer) (mc : MultiCursor) (idx : Nat) :
    Option (Buffer × MultiCursor) :=
  let pos := (mc.cursorAt idx).active
  if b.len_chars < pos.offset then none
  else
    let e := b.next_grapheme_offset pos.offset
    let deletedLen := e - pos.offset
    let b' : Buffer := ⟨b.content.take pos.offset ++ b.content.drop e, b.name⟩
    (update_cursors_after_modification b' pos.offset (-(deletedLen : Int)) idx 0 mc.cursors).map
      (fun cl => (b', ⟨cl, mc.primary_index⟩))

/-- `Buffer::delete`: broadcast in descending offset order, then
`refresh_positions`. -/
def Buffer.delete (b : Buffer) (mc : MultiCursor) : Option (Buffer × MultiCursor) :=
  match foldSteps deleteStep b mc (sortedIndices mc false) with
  | none => none
  | some (b', mc') => (mc'.refresh_positions b').map (fun mc'' => (b', mc''))

/-- A char offset is a grapheme-cluster boundary when segmenting the text
splits cleanly there. -/
def isGraphemeBoundary (cs : List Char) (o : Nat) : Prop :=
  graphemeClusters cs = graphemeClusters (cs.take o) ++ graphemeClusters (cs.drop o)

instance (cs : List Char) (o : Nat) : Decidable (isGraphemeBoundary cs o) := by
  unfold isGraphemeBoundary; infer_instance

/-- A character list with no internal grapheme break: the shape of a single
cluster. -/
def NoBreakChain (xs : List Char) : Prop :=
  List.Chain' (fun a b => graphemeBreak a b = false) xs

/-- There is a grapheme break between the last character of `X` and the
first character of `Y` (vacuously true when either is empty). -/
def brkBetween (X Y : List Char) : Prop :=
  ∀ a ∈ X.getLast?, ∀ b ∈ Y.head?, graphemeBreak a b = true

/-- Relation used for the rebase/refresh frame property: a cursor is either
untouched or has its selection collapsed (anchor equal to active). -/
def collapseOrSame (c c' : Cursor) : Prop :=
  c' = c ∨ c'.anchor = c'.active

/-! ### Basic lemmas about validation and `move_to` -/

theorem Buffer.validate_position_iff {b : Buffer} {p : TextPosition} :
    b.validate_position p = true ↔
      p.line < b.len_lines ∧ p.offset ≤ b.len_chars ∧ p.col ≤ b.grapheme_len p.line ∧
        p.offset = b.grapheme_col_to_offset p.line p.col := by
  simp [Buffer.validate_position, and_assoc]

theorem Cursor.move_to_of_valid (c : Cursor) (opts : MoveOpts) {b : Buffer} {p : TextPosition}
    (h : b.validate_position p = true) :
    c.move_to p opts b =
      some ({ anchor := opts.anchor.getD p
              active := p
              preferred_column :=
                if opts.update_preferred_col then some p.col else c.preferred_column },
            p) := by
  obtain ⟨h1, h2, h3, h4⟩ := Buffer.validate_position_iff.mp h
  have hline : min p.line (b.len_lines - 1) = p.line :=
    Nat.min_eq_left (Nat.le_sub_one_of_lt h1)
  unfold Cursor.move_to
  simp only [hline, Nat.min_eq_left h3, ← h4, h]
  simp

/-! ### C1 -/

/-- C1: the no-duplicate-offset invariant fails on the edit path.  On the
buffer `"ab"` with cursors at offsets 1 and 2, `backspace` (which performs
no overlap merge) returns a cursor set whose two cursors both have active
offset 0. -/
theorem backspace_ab_duplicate_offsets :
    (Buffer.backspace ⟨['a', 'b'], "t"⟩
        ⟨[⟨⟨0, 1, 1⟩, ⟨0, 1, 1⟩, none⟩, ⟨⟨0, 2, 2⟩, ⟨0, 2, 2⟩, none⟩], 0⟩).map
      (fun r => r.2.cursors.map (fun c => c.active.offset)) = some [0, 0] := by
  decide

/-! ### C2 -/

/-- C2 (counterexample): broadcasting `insert_char('X')` to cursors at
offsets 2 and 5 in `"abcdef"` does not produce the spec's string
`"abXcdXef"`: the second insertion happens at the rebased offset 6 of
`"abXcdef"`, i.e. before the `f`. -/
theorem insert_char_abcdef_cex :
    ¬ ((Buffer.insert_char ⟨['a', 'b', 'c', 'd', 'e', 'f'], "t"⟩
          ⟨[⟨⟨0, 2, 2⟩, ⟨0, 2, 2⟩, none⟩, ⟨⟨0, 5, 5⟩, ⟨0, 5, 5⟩, none⟩], 0⟩ 'X').map
        (fun r => r.1.content) = some ['a', 'b', 'X', 'c', 'd', 'X', 'e', 'f']) := by
  decide

/-- C2 (amended): the insertions are applied in ascending offset order and
the result is `"abXcdeXf"` — first insert at 2 gives `"abXcdef"`, the
second cursor rebases from 5 to 6 and inserts there — with each cursor one
position past the `X` it inserted (offsets 3 and 7). -/
theorem insert_char_two_cursors_abcdef :
    Buffer.insert_char ⟨['a', 'b', 'c', 'd', 'e', 'f'], "t"⟩
        ⟨[⟨⟨0, 2, 2⟩, ⟨0, 2, 2⟩, none⟩, ⟨⟨0, 5, 5⟩, ⟨0, 5, 5⟩, none⟩], 0⟩ 'X' =
      some (⟨['a', 'b', 'X', 'c', 'd', 'e', 'X', 'f'], "t"⟩,
            ⟨[⟨⟨0, 3, 3⟩, ⟨0, 3, 3⟩, some 3⟩, ⟨⟨0, 7, 7⟩, ⟨0, 7, 7⟩, some 7⟩], 0⟩) := by
  decide

/-! ### C3 -/

/-- C3 (counterexample): `move_to` does not clamp an out-of-range
destination; its initial `validate_position` assertion fires instead.  On
the one-line buffer `"ab"`, moving to line 1 faults rather than setting the
active position to the clamped destination. -/
theorem move_to_out_of_range_faults :
    Cursor.move_to Cursor.new ⟨1, 0, 0⟩ ⟨none, false⟩ ⟨['a', 'b'], "t"⟩ = none := by
  decide

/-- C3 (amended): `move_to` first asserts that `dest` is valid (an invalid
destination faults instead of being clamped); for every destination that
passes validation the line and column clamps are the identity, the offset
recomputation returns `dest.offset`, and the active position is set to
`dest`. -/
theorem move_to_valid_dest_sets_active (b : Buffer) (c : Cursor) (opts : MoveOpts)
    (dest : TextPosition) (h : b.validate_position dest = true) :
    min dest.line (b.len_lines - 1) = dest.line ∧
    min dest.col (b.grapheme_len dest.line) = dest.col ∧
    b.grapheme_col_to_offset dest.line dest.col = dest.offset ∧
    c.move_to dest opts b =
      some ({ anchor := opts.anchor.getD dest
              active := dest
              preferred_column :=
                if opts.update_preferred_col then some dest.col else c.preferred_column },
            dest) := by
  obtain ⟨h1, h2, h3, h4⟩ := Buffer.validate_position_iff.mp h
  exact ⟨Nat.min_eq_left (Nat.le_sub_one_of_lt h1), Nat.min_eq_left h3, h4.symm,
    Cursor.move_to_of_valid c opts h⟩

/-- C3 witness: concrete instance on the buffer `"ab"` and the valid
destination `(0, 1, 1)`. -/
theorem move_to_valid_dest_sets_active_witness :
    Buffer.validate_position ⟨['a', 'b'], "t"⟩ ⟨0, 1, 1⟩ = true ∧
    Cursor.move_to Cursor.new ⟨0, 1, 1⟩ ⟨none, false⟩ ⟨['a', 'b'], "t"⟩ =
      some (⟨⟨0, 1, 1⟩, ⟨0, 1, 1⟩, none⟩, ⟨0, 1, 1⟩) :=
  ⟨by decide,
   (move_to_valid_dest_sets_active ⟨['a', 'b'], "t"⟩ Cursor.new ⟨none, false⟩ ⟨0, 1, 1⟩
      (by decide)).2.2.2⟩

/-! ### C7 -/

/-- C7: for every cursor whose active position is valid and has column 0,
`move_left` reports "no movement" and leaves the cursor — active, anchor
and preferred column — unchanged; the boundary is not a fault. -/
theorem move_left_col0_no_movement (b : Buffer) (c : Cursor) (mode : EditorMode)
    (hv : b.validate_position c.active = true) (h0 : c.active.col = 0) :
    c.move_left b mode = some (c, none) := by
  unfold Cursor.move_left
  simp [hv, h0]

/-- C7 witness: cursor at the origin of the buffer `"ab"`. -/
theorem move_left_col0_no_movement_witness :
    Buffer.validate_position ⟨['a', 'b'], "t"⟩ (Cursor.new).active = true ∧
    (Cursor.new).active.col = 0 ∧
    Cursor.move_left Cursor.new ⟨['a', 'b'], "t"⟩ EditorMode.Normal = some (Cursor.new, none) :=
  ⟨by decide, by decide,
   move_left_col0_no_movement ⟨['a', 'b'], "t"⟩ Cursor.new EditorMode.Normal
     (by decide) (by decide)⟩

/-! ### C9 -/

theorem move_to_anchor_none_collapses {c : Cursor} {dest : TextPosition} {u : Bool} {b : Buffer}
    {pr : Cursor × TextPosition} (h : c.move_to dest ⟨none, u⟩ b = some pr) :
    pr.1.anchor = pr.1.active := by
  unfold Cursor.move_to at h
  dsimp only at h
  split at h
  · exact absurd h (by simp)
  · split at h
    · exact absurd h (by simp)
    · split at h <;> (injection h with h; subst h; rfl)

theorem updateOneCursor_collapse {b : Buffer} {m : Nat} {d : Int} {cur c' : Cursor}
    (h : updateOneCursor b m d cur = some c') : collapseOrSame cur c' := by
  unfold updateOneCursor at h
  dsimp only at h
  by_cases hs : (if 0 < d then decide (m ≤ cur.active.offset)
      else decide (m < cur.active.offset)) = false
  · rw [if_pos hs] at h
    injection h with h
    exact Or.inl h.symm
  · rw [if_neg hs] at h
    cases hno : (if 0 < d then some (cur.active.offset + d.toNat)
        else if cur.active.offset < (-d).toNat then none
        else some (cur.active.offset - (-d).toNat)) with
    | none => rw [hno] at h; exact absurd h (by simp)
    | some newOffset =>
      rw [hno] at h
      dsimp only at h
      by_cases hv : b.validate_position
          ⟨b.char_to_line newOffset, newOffset - b.line_to_char (b.char_to_line newOffset),
            newOffset⟩ = false
      · rw [if_pos hv] at h
        exact absurd h (by simp)
      · rw [if_neg hv] at h
        rw [Option.map_eq_some'] at h
        obtain ⟨pr, hmt, hc⟩ := h
        subst hc
        exact Or.inr (move_to_anchor_none_collapses hmt)

theorem refreshOne_collapse {b : Buffer} {cur c' : Cursor}
    (h : refreshOne b cur = some c') : collapseOrSame cur c' := by
  unfold refreshOne at h
  dsimp only at h
  by_cases hg : (decide (cur.active.line < b.len_lines) &&
      decide (cur.active.col ≤ b.grapheme_len cur.active.line)) = false
  · rw [if_pos hg] at h
    exact absurd h (by simp)
  · rw [if_neg hg] at h
    by_cases he : cur.active.offset = b.grapheme_col_to_offset cur.active.line cur.active.col
    · rw [if_pos he] at h
      injection h with h
      exact Or.inl h.symm
    · rw [if_neg he] at h
      rw [Option.map_eq_some'] at h
      obtain ⟨pr, hmt, hc⟩ := h
      subst hc
      exact Or.inr (move_to_anchor_none_collapses hmt)

theorem update_cursors_forall2 (b : Buffer) (m : Nat) (d : Int) (skip : Nat) :
    ∀ (i0 : Nat) (cs cs' : List Cursor),
      update_cursors_after_modification b m d skip i0 cs = some cs' →
      List.Forall₂ collapseOrSame cs cs' := by
  intro i0 cs
  induction cs generalizing i0 with
  | nil =>
    intro cs' h
    unfold update_cursors_after_modification at h
    injection h with h
    subst h
    exact List.Forall₂.nil
  | cons cur rest ih =>
    intro cs' h
    unfold update_cursors_after_modification at h
    cases hx : (if i0 = skip then some cur else updateOneCursor b m d cur) with
    | none => rw [hx] at h; exact absurd h (by simp)
    | some c1 =>
      rw [hx] at h
      simp only [Option.map_eq_some'] at h
      obtain ⟨tail, htail, hcs⟩ := h
      subst hcs
      refine List.Forall₂.cons ?_ (ih (i0 + 1) tail htail)
      by_cases hskip : i0 = skip
      · rw [if_pos hskip] at hx
        injection hx with hx
        exact Or.inl hx.symm
      · rw [if_neg hskip] at hx
        exact updateOneCursor_collapse hx

theorem refreshList_forall2 (b : Buffer) :
    ∀ (cs cs' : List Cursor), refreshList b cs = some cs' →
      List.Forall₂ collapseOrSame cs cs' := by
  intro cs
  induction cs with
  | nil =>
    intro cs' h
    unfold refreshList at h
    injection h with h
    subst h
    exact List.Forall₂.nil
  | cons cur rest ih =>
    intro cs' h
    unfold refreshList at h
    cases hx : refreshOne b cur with
    | none => rw [hx] at h; exact absurd h (by simp)
    | some c1 =>
      rw [hx] at h
      simp only [Option.map_eq_some'] at h
      obtain ⟨tail, htail, hcs⟩ := h
      subst hcs
      exact List.Forall₂.cons (refreshOne_collapse hx) (ih tail htail)

/-- C9: after the rebase pass (`update_cursors_after_modification`) or the
refresh pass (`refresh_positions`) of an edit operation returns, every
cursor is either untouched or has been repositioned through an
anchor-free `move_to`, which sets its anchor equal to its new active
position — i.e. every rebased or refreshed cursor has its selection
collapsed. -/
theorem rebased_cursors_collapse_selection (b : Buffer) (m : Nat) (d : Int)
    (skip i0 : Nat) (cs cs' rs rs' : List Cursor) :
    (update_cursors_after_modification b m d skip i0 cs = some cs' →
      List.Forall₂ collapseOrSame cs cs') ∧
    (refreshList b rs = some rs' → List.Forall₂ collapseOrSame rs rs') :=
  ⟨fun h => update_cursors_forall2 b m d skip i0 cs cs' h,
   fun h => refreshList_forall2 b rs rs' h⟩

/-- C9 witness: one cursor with a non-empty selection, rebased across an
insertion at offset 0 (left) and refreshed after a stale offset (right);
both results are collapsed. -/
theorem rebased_cursors_collapse_selection_witness :
    update_cursors_after_modification ⟨['a', 'b', 'c'], "t"⟩ 0 1 9 0
        [⟨⟨0, 0, 0⟩, ⟨0, 2, 2⟩, none⟩] = some [⟨⟨0, 3, 3⟩, ⟨0, 3, 3⟩, none⟩] ∧
    List.Forall₂ collapseOrSame [⟨⟨0, 0, 0⟩, ⟨0, 2, 2⟩, none⟩]
      [⟨⟨0, 3, 3⟩, ⟨0, 3, 3⟩, none⟩] ∧
    refreshList ⟨['a', 'b', 'c'], "t"⟩ [⟨⟨0, 0, 0⟩, ⟨0, 1, 2⟩, none⟩] =
      some [⟨⟨0, 1, 1⟩, ⟨0, 1, 1⟩, none⟩] ∧
    List.Forall₂ collapseOrSame [⟨⟨0, 0, 0⟩, ⟨0, 1, 2⟩, none⟩]
      [⟨⟨0, 1, 1⟩, ⟨0, 1, 1⟩, none⟩] :=
  ⟨by decide,
   (rebased_cursors_collapse_selection ⟨['a', 'b', 'c'], "t"⟩ 0 1 9 0
      [⟨⟨0, 0, 0⟩, ⟨0, 2, 2⟩, none⟩] [⟨⟨0, 3, 3⟩, ⟨0, 3, 3⟩, none⟩] [] []).1 (by decide),
   by decide,
   (rebased_cursors_collapse_selection ⟨['a', 'b', 'c'], "t"⟩ 0 1 9 0 [] []
      [⟨⟨0, 0, 0⟩, ⟨0, 1, 2⟩, none⟩] [⟨⟨0, 1, 1⟩, ⟨0, 1, 1⟩, none⟩]).2 (by decide)⟩

/-! ### C10 -/

theorem updateOneCursor_zero_noop (b : Buffer) (m : Nat) {cur : Cursor}
    (h : cur.active.offset ≤ m) : updateOneCursor b m 0 cur = some cur := by
  unfold updateOneCursor
  simp [Nat.not_lt.mpr h]

theorem update_cursors_id (b : Buffer) (m : Nat) (d : Int) (skip : Nat) :
    ∀ (i0 : Nat) (cs : List Cursor), (∀ c ∈ cs, updateOneCursor b m d c = some c) →
      update_cursors_after_modification b m d skip i0 cs = some cs := by
  intro i0 cs
  induction cs generalizing i0 with
  | nil => intro _; rfl
  | cons cur rest ih =>
    intro hall
    have hcur : (if i0 = skip then some cur else updateOneCursor b m d cur) = some cur := by
      split
      · rfl
      · exact hall cur (List.mem_cons_self cur rest)
    unfold update_cursors_after_modification
    rw [hcur, ih (i0 + 1) (fun c hc => hall c (List.mem_cons_of_mem cur hc))]
    rfl

theorem refreshOne_noop (b : Buffer) {cur : Cursor}
    (hv : b.validate_position cur.active = true) : refreshOne b cur = some cur := by
  obtain ⟨h1, h2, h3, h4⟩ := Buffer.validate_position_iff.mp hv
  unfold refreshOne
  simp [h1, h3, h4]

theorem refreshList_id (b : Buffer) :
    ∀ cs : List Cursor, (∀ c ∈ cs, refreshOne b c = some c) → refreshList b cs = some cs := by
  intro cs
  induction cs with
  | nil => intro _; rfl
  | cons cur rest ih =>
    intro hall
    unfold refreshList
    rw [hall cur (List.mem_cons_self cur rest),
      ih (fun c hc => hall c (List.mem_cons_of_mem cur hc))]
    rfl

theorem deleteStep_end (b : Buffer) (mc : MultiCursor) (idx : Nat)
    (he : (mc.cursorAt idx).active.offset = b.len_chars)
    (hall : ∀ c ∈ mc.cursors, c.active.offset ≤ b.len_chars) :
    deleteStep b mc idx = some (b, mc) := by
  have hnext : b.next_grapheme_offset b.len_chars = b.len_chars := by
    unfold Buffer.next_grapheme_offset
    simp
  have hb' : (⟨b.content.take b.len_chars ++ b.content.drop b.len_chars, b.name⟩ : Buffer) = b := by
    show (⟨b.content.take b.content.length ++ b.content.drop b.content.length, b.name⟩ : Buffer) = b
    rw [List.take_length, List.drop_length, List.append_nil]
  unfold deleteStep
  dsimp only
  rw [he, if_neg (lt_irrefl b.len_chars), hnext, hb', Nat.sub_self]
  have : (-(0 : Nat) : Int) = 0 := by simp
  rw [this, update_cursors_id b b.len_chars 0 idx 0 mc.cursors
    (fun c hc => updateOneCursor_zero_noop b b.len_chars (hall c hc))]
  rfl

/-- C10: a cursor sitting at the end of the buffer (`offset = len_chars`)
makes `delete` remove the zero-length span `[len, len)`: its processing
step leaves the buffer and every cursor unchanged and does not fault, and
for a single-cursor set at a valid end-of-buffer position the whole
`delete` operation returns the state unchanged. -/
theorem delete_at_buffer_end_noop (b : Buffer) (mc : MultiCursor) (idx : Nat)
    (he : (mc.cursorAt idx).active.offset = b.len_chars)
    (hall : ∀ c ∈ mc.cursors, c.active.offset ≤ b.len_chars) :
    deleteStep b mc idx = some (b, mc) ∧
    (∀ cur : Cursor, mc.cursors = [cur] → cur.active.offset = b.len_chars →
      b.validate_position cur.active = true → b.delete mc = some (b, mc)) := by
  refine ⟨deleteStep_end b mc idx he hall, ?_⟩
  intro cur hcs hce hcv
  obtain ⟨cl, pi⟩ := mc
  simp only at hcs
  subst hcs
  have hstep : deleteStep b ⟨[cur], pi⟩ 0 = some (b, ⟨[cur], pi⟩) := by
    refine deleteStep_end b ⟨[cur], pi⟩ 0 ?_ ?_
    · exact hce
    · intro c hc
      rw [List.mem_singleton] at hc
      subst hc
      exact Nat.le_of_eq hce
  have hsi : sortedIndices ⟨[cur], pi⟩ false = [0] := rfl
  have hfold : foldSteps deleteStep b ⟨[cur], pi⟩ [0] = some (b, ⟨[cur], pi⟩) := by
    rw [foldSteps, hstep]
    rfl
  have hrefresh : MultiCursor.refresh_positions ⟨[cur], pi⟩ b = some ⟨[cur], pi⟩ := by
    unfold MultiCursor.refresh_positions
    rw [refreshList_id b [cur] (fun c hc => by
      rw [List.mem_singleton] at hc
      subst hc
      exact refreshOne_noop b hcv)]
    rfl
  unfold Buffer.delete
  rw [hsi, hfold]
  dsimp only
  rw [hrefresh]
  rfl

/-- C10 witness: single cursor at the end of `"ab"`. -/
theorem delete_at_buffer_end_noop_witness :
    ((⟨[⟨⟨0, 2, 2⟩, ⟨0, 2, 2⟩, none⟩], 0⟩ : MultiCursor).cursorAt 0).active.offset =
      (⟨['a', 'b'], "t"⟩ : Buffer).len_chars ∧
    deleteStep ⟨['a', 'b'], "t"⟩ ⟨[⟨⟨0, 2, 2⟩, ⟨0, 2, 2⟩, none⟩], 0⟩ 0 =
      some (⟨['a', 'b'], "t"⟩, ⟨[⟨⟨0, 2, 2⟩, ⟨0, 2, 2⟩, none⟩], 0⟩) ∧
    Buffer.delete ⟨['a', 'b'], "t"⟩ ⟨[⟨⟨0, 2, 2⟩, ⟨0, 2, 2⟩, none⟩], 0⟩ =
      some (⟨['a', 'b'], "t"⟩, ⟨[⟨⟨0, 2, 2⟩, ⟨0, 2, 2⟩, none⟩], 0⟩) :=
  ⟨by decide,
   (delete_at_buffer_end_noop ⟨['a', 'b'], "t"⟩ ⟨[⟨⟨0, 2, 2⟩, ⟨0, 2, 2⟩, none⟩], 0⟩ 0
      (by decide) (by decide)).1,
   (delete_at_buffer_end_noop ⟨['a', 'b'], "t"⟩ ⟨[⟨⟨0, 2, 2⟩, ⟨0, 2, 2⟩, none⟩], 0⟩ 0
      (by decide) (by decide)).2 ⟨⟨0, 2, 2⟩, ⟨0, 2, 2⟩, none⟩ rfl (by decide) (by decide)⟩

/-! ### Grapheme segmentation lemmas -/

theorem gcAux_join : ∀ (xs : List Char) (c : Char),
    (gcAux c xs).1 ++ (gcAux c xs).2.flatten = c :: xs := by
  intro xs
  induction xs with
  | nil => intro c; simp [gcAux]
  | cons d rest ih =>
    intro c
    by_cases hb : graphemeBreak c d
    · simp [gcAux, hb, ih d]
    · simp [gcAux, hb]
      exact ih d

theorem graphemeClusters_join : ∀ xs : List Char, (graphemeClusters xs).flatten = xs := by
  intro xs
  cases xs with
  | nil => rfl
  | cons c rest =>
    show ((gcAux c rest).1 :: (gcAux c rest).2).flatten = c :: rest
    simpa using gcAux_join rest c

theorem gcAux_fst_head (xs : List Char) (c : Char) : ((gcAux c xs).1).head? = some c := by
  cases xs with
  | nil => simp [gcAux]
  | cons d rest =>
    by_cases hb : graphemeBreak c d
    · simp [gcAux, hb]
    · simp [gcAux, hb]

theorem gcAux_mem_ne_nil : ∀ (xs : List Char) (c : Char),
    ∀ cl ∈ (gcAux c xs).1 :: (gcAux c xs).2, cl ≠ [] := by
  intro xs
  induction xs with
  | nil =>
    intro c cl hcl
    simp [gcAux] at hcl
    simp [hcl]
  | cons d rest ih =>
    intro c cl hcl
    by_cases hb : graphemeBreak c d
    · simp only [gcAux, hb, if_pos] at hcl
      rcases List.mem_cons.mp hcl with h1 | h2
      · simp [h1]
      · exact ih d cl h2
    · simp only [gcAux, hb] at hcl
      rw [if_neg (by simp [hb])] at hcl
      rcases List.mem_cons.mp hcl with h1 | h2
      · simp [h1]
      · exact ih d cl (List.mem_cons_of_mem _ h2)

theorem graphemeClusters_ne_nil {xs : List Char} :
    ∀ cl ∈ graphemeClusters xs, cl ≠ [] := by
  cases xs with
  | nil => intro cl hcl; simp [graphemeClusters] at hcl
  | cons c rest => exact gcAux_mem_ne_nil rest c

theorem graphemeClusters_eq_nil_iff {xs : List Char} :
    graphemeClusters xs = [] ↔ xs = [] := by
  constructor
  · intro h
    have := graphemeClusters_join xs
    rw [h] at this
    simpa using this.symm
  · intro h; subst h; rfl

theorem gcAux_coherent : ∀ (xs : List Char) (c : Char),
    NoBreakChain ((gcAux c xs).1) ∧ ∀ cl ∈ (gcAux c xs).2, NoBreakChain cl := by
  intro xs
  induction xs with
  | nil =>
    intro c
    refine ⟨List.chain'_singleton c, ?_⟩
    intro cl hcl
    simp [gcAux] at hcl
  | cons d rest ih =>
    intro c
    by_cases hb : graphemeBreak c d
    · refine ⟨?_, ?_⟩
      · simp [gcAux, hb, NoBreakChain]
      · intro cl hcl
        simp only [gcAux, hb, if_pos] at hcl
        rcases List.mem_cons.mp hcl with h1 | h2
        · rw [h1]; exact (ih d).1
        · exact (ih d).2 cl h2
    · refine ⟨?_, ?_⟩
      · have hhd := gcAux_fst_head rest d
        show NoBreakChain ((gcAux c (d :: rest)).1)
        have : (gcAux c (d :: rest)).1 = c :: (gcAux d rest).1 := by
          simp [gcAux, hb]
        rw [this]
        rw [NoBreakChain, List.chain'_cons']
        refine ⟨?_, (ih d).1⟩
        intro y hy
        rw [hhd] at hy
        simp at hy
        subst hy
        exact Bool.eq_false_iff.mpr hb
      · intro cl hcl
        have : (gcAux c (d :: rest)).2 = (gcAux d rest).2 := by
          simp [gcAux, hb]
        rw [this] at hcl
        exact (ih d).2 cl hcl

theorem graphemeClusters_coherent {xs : List Char} :
    ∀ cl ∈ graphemeClusters xs, NoBreakChain cl := by
  cases xs with
  | nil => intro cl hcl; simp [graphemeClusters] at hcl
  | cons c rest =>
    intro cl hcl
    rcases List.mem_cons.mp hcl with h1 | h2
    · rw [h1]; exact (gcAux_coherent rest c).1
    · exact (gcAux_coherent rest c).2 cl h2

theorem gcAux_of_chain : ∀ (xs : List Char) (c : Char),
    NoBreakChain (c :: xs) → gcAux c xs = (c :: xs, []) := by
  intro xs
  induction xs with
  | nil => intro c _; rfl
  | cons d rest ih =>
    intro c h
    rw [NoBreakChain, List.chain'_cons] at h
    obtain ⟨hcd, htail⟩ := h
    simp [gcAux, hcd, ih d htail]

theorem graphemeClusters_single {xs : List Char} (hne : xs ≠ [])
    (hch : NoBreakChain xs) : graphemeClusters xs = [xs] := by
  cases xs with
  | nil => exact absurd rfl hne
  | cons c rest =>
    show (gcAux c rest).1 :: (gcAux c rest).2 = [c :: rest]
    rw [gcAux_of_chain rest c hch]

theorem gcAux_append : ∀ (xs : List Char) (c y : Char) (ys : List Char),
    graphemeBreak (xs.getLastD c) y = true →
    gcAux c (xs ++ y :: ys) = ((gcAux c xs).1, (gcAux c xs).2 ++ graphemeClusters (y :: ys)) := by
  intro xs
  induction xs with
  | nil =>
    intro c y ys hbr
    simp only [List.getLastD_nil] at hbr
    simp [gcAux, hbr, graphemeClusters]
  | cons d rest ih =>
    intro c y ys hbr
    rw [List.getLastD_cons] at hbr
    by_cases hb : graphemeBreak c d
    · simp [gcAux, hb, ih d y ys hbr]
    · simp [gcAux, hb, ih d y ys hbr]

theorem graphemeClusters_append {xs ys : List Char} (hxs : xs ≠ []) (hys : ys ≠ [])
    (hbr : ∀ a ∈ xs.getLast?, ∀ b ∈ ys.head?, graphemeBreak a b = true) :
    graphemeClusters (xs ++ ys) = graphemeClusters xs ++ graphemeClusters ys := by
  cases xs with
  | nil => exact absurd rfl hxs
  | cons c xs' =>
    cases ys with
    | nil => exact absurd rfl hys
    | cons y ys' =>
      have hlast : (c :: xs').getLast? = some (xs'.getLastD c) := by
        rw [List.getLast?_eq_getLast _ (by simp), List.getLast_eq_getLastD]
      have hbr' : graphemeBreak (xs'.getLastD c) y = true := by
        refine hbr _ ?_ y rfl
        rw [hlast]
        rfl
      show (gcAux c (xs' ++ y :: ys')).1 :: (gcAux c (xs' ++ y :: ys')).2 =
        ((gcAux c xs').1 :: (gcAux c xs').2) ++ graphemeClusters (y :: ys')
      rw [gcAux_append xs' c y ys' hbr']
      simp

theorem gcAux_brk_chain : ∀ (xs : List Char) (c : Char),
    List.Chain' brkBetween ((gcAux c xs).1 :: (gcAux c xs).2) := by
  intro xs
  induction xs with
  | nil => intro c; simp [gcAux]
  | cons d rest ih =>
    intro c
    by_cases hb : graphemeBreak c d
    · have h1 : (gcAux c (d :: rest)).1 = [c] := by simp [gcAux, hb]
      have h2 : (gcAux c (d :: rest)).2 = (gcAux d rest).1 :: (gcAux d rest).2 := by
        simp [gcAux, hb]
      rw [h1, h2, List.chain'_cons']
      refine ⟨?_, ih d⟩
      intro y hy
      intro a ha bb hbb
      simp at ha
      subst ha
      rw [List.head?_cons] at hy
      simp at hy
      subst hy
      rw [gcAux_fst_head] at hbb
      simp at hbb
      subst hbb
      exact hb
    · have h1 : (gcAux c (d :: rest)).1 = c :: (gcAux d rest).1 := by simp [gcAux, hb]
      have h2 : (gcAux c (d :: rest)).2 = (gcAux d rest).2 := by simp [gcAux, hb]
      rw [h1, h2, List.chain'_cons']
      have := ih d
      rw [List.chain'_cons'] at this
      refine ⟨?_, this.2⟩
      intro y hy
      have hbrk := this.1 y hy
      intro a ha bb hbb
      obtain ⟨t, ht⟩ : ∃ t, (gcAux d rest).1 = d :: t := by
        have hh := gcAux_fst_head rest d
        cases hq : (gcAux d rest).1 with
        | nil => rw [hq] at hh; simp at hh
        | cons e t =>
          rw [hq] at hh
          simp at hh
          subst hh
          exact ⟨t, rfl⟩
      rw [ht] at ha
      rw [List.getLast?_cons_cons] at ha
      refine hbrk a ?_ bb hbb
      rw [ht]
      exact ha

theorem graphemeClusters_brk_chain {xs : List Char} :
    List.Chain' brkBetween (graphemeClusters xs) := by
  cases xs with
  | nil => simp [graphemeClusters]
  | cons c rest => exact gcAux_brk_chain rest c

theorem graphemeClusters_sum_length (xs : List Char) :
    ((graphemeClusters xs).map List.length).sum = xs.length := by
  rw [← List.length_flatten, graphemeClusters_join]

/-! ### Line bookkeeping lemmas -/

theorem countNl_nil : countNl [] = 0 := rfl

theorem countNl_cons (c : Char) (l : List Char) :
    countNl (c :: l) = countNl l + (if c = '\n' then 1 else 0) := by
  simp [countNl, List.countP_cons]

theorem countNl_append (xs ys : List Char) :
    countNl (xs ++ ys) = countNl xs + countNl ys := by
  simp [countNl, List.countP_append]

theorem lineStartIdx_le_length : ∀ (cs : List Char) (n : Nat),
    lineStartIdx cs n ≤ cs.length := by
  intro cs
  induction cs with
  | nil => intro n; cases n <;> simp [lineStartIdx]
  | cons c rest ih =>
    intro n
    cases n with
    | zero => simp [lineStartIdx]
    | succ m =>
      simp only [lineStartIdx, List.length_cons]
      split
      · have := ih m; omega
      · have := ih (m + 1); omega

theorem countNl_take_lineStart : ∀ (cs : List Char) (n : Nat),
    countNl (cs.take (lineStartIdx cs n)) = min n (countNl cs) := by
  intro cs
  induction cs with
  | nil => intro n; cases n <;> simp [lineStartIdx, countNl]
  | cons c rest ih =>
    intro n
    cases n with
    | zero => simp [lineStartIdx, countNl]
    | succ m =>
      simp only [lineStartIdx]
      by_cases hc : c = '\n'
      · rw [if_pos hc, Nat.add_comm, List.take_succ_cons, countNl_cons, countNl_cons,
          if_pos hc]
        have := ih m
        omega
      · rw [if_neg hc, Nat.add_comm, List.take_succ_cons, countNl_cons, countNl_cons,
          if_neg hc]
        have := ih (m + 1)
        omega

theorem countNl_take_mono {cs : List Char} {j j' : Nat} (h : j ≤ j') :
    countNl (cs.take j) ≤ countNl (cs.take j') := by
  have heq : cs.take j = (cs.take j').take j := by
    rw [List.take_take, Nat.min_eq_left h]
  rw [heq]
  exact List.Sublist.countP_le _ (List.take_sublist _ _)

theorem countNl_take_succ : ∀ (cs : List Char) (j : Nat), j < cs.length →
    countNl (cs.take (j + 1)) =
      countNl (cs.take j) + (if cs.getD j ' ' = '\n' then 1 else 0) := by
  intro cs
  induction cs with
  | nil => intro j h; simp at h
  | cons c rest ih =>
    intro j h
    cases j with
    | zero => simp [List.take_succ_cons, countNl_cons, countNl_nil]
    | succ m =>
      have h' : m < rest.length := by simpa using h
      simp only [List.take_succ_cons, countNl_cons, List.getD_cons_succ, ih m h']
      omega

theorem lineStart_getD : ∀ (cs : List Char) (n : Nat), n + 1 ≤ countNl cs →
    cs.getD (lineStartIdx cs (n + 1) - 1) ' ' = '\n' ∧ 1 ≤ lineStartIdx cs (n + 1) := by
  intro cs
  induction cs with
  | nil => intro n h; simp [countNl_nil] at h
  | cons c rest ih =>
    intro n h
    simp only [lineStartIdx]
    by_cases hc : c = '\n'
    · rw [if_pos hc]
      cases n with
      | zero =>
        refine ⟨?_, by omega⟩
        simp [lineStartIdx, hc]
      | succ m =>
        have h' : m + 1 ≤ countNl rest := by
          rw [countNl_cons, if_pos hc] at h
          omega
        have hrec := ih m h'
        refine ⟨?_, by omega⟩
        rw [show 1 + lineStartIdx rest (m + 1) - 1 = (lineStartIdx rest (m + 1) - 1) + 1 by
          omega]
        rw [List.getD_cons_succ]
        exact hrec.1
    · rw [if_neg hc]
      have h' : n + 1 ≤ countNl rest := by
        rw [countNl_cons, if_neg hc] at h
        omega
      have hrec := ih n h'
      refine ⟨?_, by omega⟩
      rw [show 1 + lineStartIdx rest (n + 1) - 1 = (lineStartIdx rest (n + 1) - 1) + 1 by
        omega]
      rw [List.getD_cons_succ]
      exact hrec.1

theorem lineStartIdx_zero (cs : List Char) : lineStartIdx cs 0 = 0 := by
  cases cs <;> rfl

theorem lineStartIdx_append : ∀ (xs zs : List Char) (n : Nat), n ≤ countNl xs →
    lineStartIdx (xs ++ zs) n = lineStartIdx xs n := by
  intro xs
  induction xs with
  | nil =>
    intro zs n h
    rw [countNl_nil, Nat.le_zero] at h
    subst h
    rw [lineStartIdx_zero, lineStartIdx_zero]
  | cons c rest ih =>
    intro zs n h
    cases n with
    | zero => rw [lineStartIdx_zero, lineStartIdx_zero]
    | succ m =>
      rw [List.cons_append]
      show 1 + (if c = '\n' then lineStartIdx (rest ++ zs) m
          else lineStartIdx (rest ++ zs) (m + 1)) =
        1 + (if c = '\n' then lineStartIdx rest m else lineStartIdx rest (m + 1))
      by_cases hc : c = '\n'
      · rw [if_pos hc, if_pos hc, ih zs m (by rw [countNl_cons, if_pos hc] at h; omega)]
      · rw [if_neg hc, if_neg hc, ih zs (m + 1) (by rw [countNl_cons, if_neg hc] at h; omega)]

/-! ### Constructing valid positions -/

theorem visible_line_length_le (b : Buffer) (l : Nat) :
    (b.visible_line_content l).length ≤ (b.content.drop (b.line_to_char l)).length := by
  unfold Buffer.visible_line_content dropTrailingBreaks
  calc ((((b.content.drop (b.line_to_char l)).takeWhile
          (fun c => !(c == '\n'))).reverse.dropWhile (fun c => c == '\r' || c == '\n')).reverse).length
      = (((b.content.drop (b.line_to_char l)).takeWhile
          (fun c => !(c == '\n'))).reverse.dropWhile (fun c => c == '\r' || c == '\n')).length := by
        rw [List.length_reverse]
    _ ≤ (((b.content.drop (b.line_to_char l)).takeWhile (fun c => !(c == '\n'))).reverse).length :=
        (List.dropWhile_suffix _).length_le
    _ = ((b.content.drop (b.line_to_char l)).takeWhile (fun c => !(c == '\n'))).length := by
        rw [List.length_reverse]
    _ ≤ (b.content.drop (b.line_to_char l)).length := (List.takeWhile_prefix _).length_le

theorem sum_take_clusters_le (xs : List (List Char)) (c : Nat) :
    ((xs.take c).map List.length).sum ≤ (xs.map List.length).sum := by
  conv_rhs => rw [← List.take_append_drop c xs]
  rw [List.map_append, List.sum_append]
  exact Nat.le_add_right _ _

theorem grapheme_col_to_offset_le (b : Buffer) (l c : Nat) :
    b.grapheme_col_to_offset l c ≤ b.len_chars := by
  unfold Buffer.grapheme_col_to_offset Buffer.len_chars
  have h1 : (((graphemeClusters (b.visible_line_content l)).take c).map List.length).sum ≤
      (b.visible_line_content l).length := by
    calc (((graphemeClusters (b.visible_line_content l)).take c).map List.length).sum
        ≤ ((graphemeClusters (b.visible_line_content l)).map List.length).sum :=
          sum_take_clusters_le _ c
      _ = (b.visible_line_content l).length := graphemeClusters_sum_length _
  have h2 := visible_line_length_le b l
  have h3 : b.line_to_char l ≤ b.content.length := lineStartIdx_le_length _ _
  rw [List.length_drop] at h2
  omega

theorem validate_position_mk {b : Buffer} {l c : Nat} (h1 : l < b.len_lines)
    (h3 : c ≤ b.grapheme_len l) :
    b.validate_position ⟨l, c, b.grapheme_col_to_offset l c⟩ = true := by
  rw [Buffer.validate_position_iff]
  exact ⟨h1, grapheme_col_to_offset_le b l c, h3, rfl⟩

theorem get_max_col_le (mode : EditorMode) (b : Buffer) (t : Nat) :
    Cursor.get_max_col mode b t ≤ b.grapheme_len t := by
  cases mode <;> unfold Cursor.get_max_col <;> dsimp only
  · split <;> omega
  · exact Nat.le_refl _
  · split <;> omega

/-! ### C6 -/

theorem move_up_spec (b : Buffer) (c : Cursor) (mode : EditorMode)
    (hv : b.validate_position c.active = true) (hl : c.active.line ≠ 0) :
    c.move_up b mode = some
      ({ anchor := (if mode = EditorMode.Visual then some c.anchor else none).getD
            ⟨c.active.line - 1,
             min (c.preferred_column.getD c.active.col)
               (Cursor.get_max_col mode b (c.active.line - 1)),
             b.grapheme_col_to_offset (c.active.line - 1)
               (min (c.preferred_column.getD c.active.col)
                 (Cursor.get_max_col mode b (c.active.line - 1)))⟩
         active := ⟨c.active.line - 1,
             min (c.preferred_column.getD c.active.col)
               (Cursor.get_max_col mode b (c.active.line - 1)),
             b.grapheme_col_to_offset (c.active.line - 1)
               (min (c.preferred_column.getD c.active.col)
                 (Cursor.get_max_col mode b (c.active.line - 1)))⟩
         preferred_column := c.preferred_column },
       some ⟨c.active.line - 1,
             min (c.preferred_column.getD c.active.col)
               (Cursor.get_max_col mode b (c.active.line - 1)),
             b.grapheme_col_to_offset (c.active.line - 1)
               (min (c.preferred_column.getD c.active.col)
                 (Cursor.get_max_col mode b (c.active.line - 1)))⟩) := by
  obtain ⟨h1, h2, h3, h4⟩ := Buffer.validate_position_iff.mp hv
  have htl : c.active.line - 1 < b.len_lines := lt_of_le_of_lt (Nat.sub_le _ _) h1
  have hnc : min (c.preferred_column.getD c.active.col)
      (Cursor.get_max_col mode b (c.active.line - 1)) ≤ b.grapheme_len (c.active.line - 1) :=
    le_trans (Nat.min_le_right _ _) (get_max_col_le mode b _)
  have hvp := validate_position_mk htl hnc
  have hmt := Cursor.move_to_of_valid c
    ⟨if mode = EditorMode.Visual then some c.anchor else none, false⟩ hvp
  unfold Cursor.move_up
  rw [if_neg (by simp [hv]), if_neg hl]
  dsimp only
  rw [if_neg (by simp [hvp]), hmt]
  rfl

theorem move_down_spec (b : Buffer) (c : Cursor) (mode : EditorMode)
    (hv : b.validate_position c.active = true) (hl : c.active.line + 1 < b.len_lines) :
    c.move_down b mode = some
      ({ anchor := (if mode = EditorMode.Visual then some c.anchor else none).getD
            ⟨c.active.line + 1,
             min (c.preferred_column.getD c.active.col)
               (Cursor.get_max_col mode b (c.active.line + 1)),
             b.grapheme_col_to_offset (c.active.line + 1)
               (min (c.preferred_column.getD c.active.col)
                 (Cursor.get_max_col mode b (c.active.line + 1)))⟩
         active := ⟨c.active.line + 1,
             min (c.preferred_column.getD c.active.col)
               (Cursor.get_max_col mode b (c.active.line + 1)),
             b.grapheme_col_to_offset (c.active.line + 1)
               (min (c.preferred_column.getD c.active.col)
                 (Cursor.get_max_col mode b (c.active.line + 1)))⟩
         preferred_column := c.preferred_column },
       some ⟨c.active.line + 1,
             min (c.preferred_column.getD c.active.col)
               (Cursor.get_max_col mode b (c.active.line + 1)),
             b.grapheme_col_to_offset (c.active.line + 1)
               (min (c.preferred_column.getD c.active.col)
                 (Cursor.get_max_col mode b (c.active.line + 1)))⟩) := by
  have hnc : min (c.preferred_column.getD c.active.col)
      (Cursor.get_max_col mode b (c.active.line + 1)) ≤ b.grapheme_len (c.active.line + 1) :=
    le_trans (Nat.min_le_right _ _) (get_max_col_le mode b _)
  have hvp := validate_position_mk hl hnc
  have hmt := Cursor.move_to_of_valid c
    ⟨if mode = EditorMode.Visual then some c.anchor else none, false⟩ hvp
  unfold Cursor.move_down
  rw [if_neg (by simp [hv]), if_neg (Nat.not_le.mpr hl)]
  dsimp only
  rw [if_neg (by simp [hvp]), hmt]
  rfl

/-- C6: for a cursor with a valid active position, `move_up` on a non-first
line (resp. `move_down` on a non-last line) moves to the adjacent line,
sets the column to `min(preferred_column ?? current column, target line's
maximum reachable column)`, and leaves `preferred_column` unchanged. -/
theorem move_up_down_preferred_col (b : Buffer) (c : Cursor) (mode : EditorMode)
    (hv : b.validate_position c.active = true) :
    (c.active.line ≠ 0 →
      ∃ c' p, c.move_up b mode = some (c', some p) ∧
        p.line = c.active.line - 1 ∧
        p.col = min (c.preferred_column.getD c.active.col)
          (Cursor.get_max_col mode b (c.active.line - 1)) ∧
        c'.active = p ∧ c'.preferred_column = c.preferred_column) ∧
    (c.active.line + 1 < b.len_lines →
      ∃ c' p, c.move_down b mode = some (c', some p) ∧
        p.line = c.active.line + 1 ∧
        p.col = min (c.preferred_column.getD c.active.col)
          (Cursor.get_max_col mode b (c.active.line + 1)) ∧
        c'.active = p ∧ c'.preferred_column = c.preferred_column) := by
  constructor
  · intro hl
    exact ⟨_, _, move_up_spec b c mode hv hl, rfl, rfl, rfl, rfl⟩
  · intro hl
    exact ⟨_, _, move_down_spec b c mode hv hl, rfl, rfl, rfl, rfl⟩

/-- C6 witness: on the three-line buffer `"a\nb\nc"`, the cursor at the
start of line 1 moves up to line 0 and down to line 2, keeping its
(unset) preferred column. -/
theorem move_up_down_preferred_col_witness :
    Buffer.validate_position ⟨['a', '\n', 'b', '\n', 'c'], "t"⟩ ⟨1, 0, 2⟩ = true ∧
    ((⟨1, 0, 2⟩ : TextPosition).line ≠ 0 →
      ∃ c' p, Cursor.move_up ⟨⟨1, 0, 2⟩, ⟨1, 0, 2⟩, none⟩ ⟨['a', '\n', 'b', '\n', 'c'], "t"⟩
          EditorMode.Normal = some (c', some p) ∧
        p.line = (⟨1, 0, 2⟩ : TextPosition).line - 1 ∧
        p.col = min ((none : Option Nat).getD (⟨1, 0, 2⟩ : TextPosition).col)
          (Cursor.get_max_col EditorMode.Normal ⟨['a', '\n', 'b', '\n', 'c'], "t"⟩
            ((⟨1, 0, 2⟩ : TextPosition).line - 1)) ∧
        c'.active = p ∧ c'.preferred_column = none) ∧
    ((⟨1, 0, 2⟩ : TextPosition).line + 1 < (⟨['a', '\n', 'b', '\n', 'c'], "t"⟩ : Buffer).len_lines →
      ∃ c' p, Cursor.move_down ⟨⟨1, 0, 2⟩, ⟨1, 0, 2⟩, none⟩ ⟨['a', '\n', 'b', '\n', 'c'], "t"⟩
          EditorMode.Normal = some (c', some p) ∧
        p.line = (⟨1, 0, 2⟩ : TextPosition).line + 1 ∧
        p.col = min ((none : Option Nat).getD (⟨1, 0, 2⟩ : TextPosition).col)
          (Cursor.get_max_col EditorMode.Normal ⟨['a', '\n', 'b', '\n', 'c'], "t"⟩
            ((⟨1, 0, 2⟩ : TextPosition).line + 1)) ∧
        c'.active = p ∧ c'.preferred_column = none) :=
  ⟨by decide,
   (move_up_down_preferred_col ⟨['a', '\n', 'b', '\n', 'c'], "t"⟩
      ⟨⟨1, 0, 2⟩, ⟨1, 0, 2⟩, none⟩ EditorMode.Normal (by decide)).1,
   (move_up_down_preferred_col ⟨['a', '\n', 'b', '\n', 'c'], "t"⟩
      ⟨⟨1, 0, 2⟩, ⟨1, 0, 2⟩, none⟩ EditorMode.Normal (by decide)).2⟩

/-! ### C8 -/

/-- C8: for every offset `o` that is a grapheme-cluster boundary of the
buffer content with `0 < o ≤ len_chars`,
`next_grapheme_offset (prev_grapheme_offset o) = o`. -/
theorem next_prev_grapheme_roundtrip (b : Buffer) (o : Nat)
    (hb : isGraphemeBoundary b.content o) (h0 : 0 < o) (hle : o ≤ b.len_chars) :
    b.next_grapheme_offset (b.prev_grapheme_offset o) = o := by
  have hlen : b.content.length = b.len_chars := rfl
  have htake_len : (b.content.take o).length = o := by
    rw [List.length_take, hlen, Nat.min_eq_left hle]
  have htne : b.content.take o ≠ [] := by
    intro hcon
    rw [hcon] at htake_len
    simp at htake_len
    omega
  have hAne : graphemeClusters (b.content.take o) ≠ [] := by
    intro hcon
    exact htne (graphemeClusters_eq_nil_iff.mp hcon)
  set A := graphemeClusters (b.content.take o) with hA
  set lc := A.getLast hAne with hlc
  have hlc_mem : lc ∈ A := List.getLast_mem hAne
  have hlc_ne : lc ≠ [] := graphemeClusters_ne_nil lc hlc_mem
  have hlc_pos : 0 < lc.length := List.length_pos.mpr hlc_ne
  have hflat : A.flatten = b.content.take o := graphemeClusters_join _
  have hsplitA : A.dropLast ++ [lc] = A := List.dropLast_append_getLast hAne
  have hJ : A.dropLast.flatten ++ lc = b.content.take o := by
    have := congrArg List.flatten hsplitA
    rw [List.flatten_append] at this
    simpa [hflat] using this
  have hJlen : A.dropLast.flatten.length = o - lc.length := by
    have := congrArg List.length hJ
    rw [List.length_append, htake_len] at this
    omega
  have hlc_le : lc.length ≤ o := by
    have hmem' : lc.length ∈ A.map List.length := List.mem_map_of_mem List.length hlc_mem
    have hsum : (A.map List.length).sum = o := by
      rw [hA, graphemeClusters_sum_length, htake_len]
    have := List.single_le_sum (fun x _ => Nat.zero_le x) lc.length hmem'
    omega
  have hprev : b.prev_grapheme_offset o = o - lc.length := by
    unfold Buffer.prev_grapheme_offset
    rw [if_neg (Nat.pos_iff_ne_zero.mp h0), htake_len, List.getLastD_eq_getLast?,
      List.getLast?_eq_getLast _ hAne]
    rfl
  have hp_lt : o - lc.length < o := Nat.sub_lt h0 hlc_pos
  have hdrop : b.content.drop (o - lc.length) = lc ++ b.content.drop o := by
    conv_lhs => rw [← List.take_append_drop o b.content]
    rw [List.drop_append_eq_append_drop, ← hJ]
    rw [List.length_append]
    have hd1 : (A.dropLast.flatten ++ lc).drop (o - lc.length) = lc := by
      rw [← hJlen, List.drop_left]
    rw [hd1, show o - lc.length - (A.dropLast.flatten.length + lc.length) = 0 by omega,
      List.drop_zero]
  have hcoh : NoBreakChain lc := graphemeClusters_coherent lc hlc_mem
  have hlc_single : graphemeClusters lc = [lc] := graphemeClusters_single hlc_ne hcoh
  have hclusters_drop : graphemeClusters (b.content.drop (o - lc.length)) =
      lc :: graphemeClusters (b.content.drop o) := by
    rw [hdrop]
    cases hdo : b.content.drop o with
    | nil =>
      rw [List.append_nil]
      rw [hlc_single]
      rfl
    | cons e es =>
      have hBne : graphemeClusters (b.content.drop o) ≠ [] := by
        rw [hdo]
        intro hcon
        have := graphemeClusters_eq_nil_iff.mp hcon
        simp at this
      have hchain := @graphemeClusters_brk_chain b.content
      rw [isGraphemeBoundary] at hb
      rw [hb] at hchain
      obtain ⟨-, -, hmid⟩ := List.chain'_append.mp hchain
      obtain ⟨b0, B', hB⟩ : ∃ b0 B', graphemeClusters (b.content.drop o) = b0 :: B' := by
        cases hq : graphemeClusters (b.content.drop o) with
        | nil => exact absurd hq hBne
        | cons x xs => exact ⟨x, xs, rfl⟩
      have hb0_mem : b0 ∈ graphemeClusters (b.content.drop o) := by
        rw [hB]
        exact List.mem_cons_self _ _
      have hb0_ne : b0 ≠ [] := graphemeClusters_ne_nil b0 hb0_mem
      have hb0_head : b0.head? = some e := by
        have hfl : (graphemeClusters (b.content.drop o)).flatten = b.content.drop o :=
          graphemeClusters_join _
        rw [hB, hdo] at hfl
        cases hb0 : b0 with
        | nil => exact absurd hb0 hb0_ne
        | cons f t =>
          rw [hb0] at hfl
          simp only [List.flatten_cons, List.cons_append] at hfl
          injection hfl with h1 _
          rw [h1]
          rfl
      have hbrk : brkBetween lc b0 := by
        refine hmid lc ?_ b0 ?_
        · rw [← hA, List.getLast?_eq_getLast _ hAne]
          rfl
        · rw [hB]
          rfl
      refine (graphemeClusters_append hlc_ne (List.cons_ne_nil e es) ?_).trans ?_
      · intro a ha bb hbb
        rw [List.head?_cons] at hbb
        simp at hbb
        subst hbb
        refine hbrk a ha e ?_
        rw [hb0_head]
        rfl
      · rw [hlc_single]
        rfl
  have hplen : o - lc.length < b.len_chars := lt_of_lt_of_le hp_lt hle
  rw [hprev]
  unfold Buffer.next_grapheme_offset
  rw [if_neg (Nat.not_le.mpr hplen), hclusters_drop]
  show o - lc.length + lc.length = o
  omega

/-- C8 witness: offset 1 in the buffer `"ab"` is a grapheme boundary and
`next (prev 1) = 1`. -/
theorem next_prev_grapheme_roundtrip_witness :
    isGraphemeBoundary (['a', 'b'] : List Char) 1 ∧
    Buffer.next_grapheme_offset ⟨['a', 'b'], "t"⟩
      (Buffer.prev_grapheme_offset ⟨['a', 'b'], "t"⟩ 1) = 1 :=
  ⟨by decide,
   next_prev_grapheme_roundtrip ⟨['a', 'b'], "t"⟩ 1 (by decide) (by decide) (by decide)⟩

/-! ### C4 -/

theorem take_eq_of_isPrefix {u v : List Char} (h : u <+: v) {n : Nat} (hn : n ≤ u.length) :
    v.take n = u.take n := by
  calc v.take n = (v.take u.length).take n := by rw [List.take_take, Nat.min_eq_left hn]
    _ = u.take n := by rw [← List.prefix_iff_eq_take.mp h]

theorem dropTrailingBreaks_length_le (xs : List Char) :
    (dropTrailingBreaks xs).length ≤ xs.length := by
  unfold dropTrailingBreaks
  calc ((xs.reverse.dropWhile (fun c => c == '\r' || c == '\n')).reverse).length
      = (xs.reverse.dropWhile (fun c => c == '\r' || c == '\n')).length := List.length_reverse _
    _ ≤ xs.reverse.length := (List.dropWhile_suffix _).length_le
    _ = xs.length := List.length_reverse _

theorem mem_takeWhile_ne_nl {cs : List Char} {x : Char}
    (hx : x ∈ cs.takeWhile (fun c => !(c == '\n'))) : x ≠ '\n' := by
  have := List.mem_takeWhile_imp hx
  simpa using this

theorem sum_map_length_of_all_one {L : List (List Char)}
    (h : ∀ cl ∈ L, cl.length = 1) : (L.map List.length).sum = L.length := by
  induction L with
  | nil => rfl
  | cons a t ih =>
    have ha := h a (List.mem_cons_self a t)
    have ht := ih (fun cl hcl => h cl (List.mem_cons_of_mem _ hcl))
    simp [ha, ht]
    omega

/-- C4 (counterexample): on the one-line buffer whose content is `e`
followed by the combining acute accent U+0301 (one grapheme cluster of two
chars), the valid pair `(0, 1)` does not round-trip: the column computed
back from the offset is the char distance 2, not 1. -/
theorem round_trip_combining_cex :
    1 ≤ Buffer.grapheme_len ⟨['e', Char.ofNat 0x301], "t"⟩ 0 ∧
    ¬ (Buffer.grapheme_col_to_offset ⟨['e', Char.ofNat 0x301], "t"⟩ 0 1 -
        Buffer.line_to_char ⟨['e', Char.ofNat 0x301], "t"⟩
          (Buffer.char_to_line ⟨['e', Char.ofNat 0x301], "t"⟩
            (Buffer.grapheme_col_to_offset ⟨['e', Char.ofNat 0x301], "t"⟩ 0 1)) = 1) := by
  decide

/-- C4 (amended): for every valid `(line, col)` the line component always
round-trips (`char_to_line (grapheme_col_to_offset line col) = line`), and
the column computed back as the char distance from the line start — the way
`update_cursors_after_modification` computes columns — equals `col`
provided the first `col` grapheme clusters of the line are all single
characters.  (With a multi-char cluster the char distance overcounts, see
the counterexample.) -/
theorem round_trip_line_col (b : Buffer) (l c : Nat) (hl : l < b.len_lines)
    (hc : c ≤ b.grapheme_len l) :
    b.char_to_line (b.grapheme_col_to_offset l c) = l ∧
    ((∀ cl ∈ (graphemeClusters (b.visible_line_content l)).take c, cl.length = 1) →
      b.grapheme_col_to_offset l c -
        b.line_to_char (b.char_to_line (b.grapheme_col_to_offset l c)) = c) := by
  have hlcount : l ≤ countNl b.content := by
    have : b.len_lines = countNl b.content + 1 := rfl
    omega
  have hS_le : (((graphemeClusters (b.visible_line_content l)).take c).map List.length).sum ≤
      ((b.content.drop (b.line_to_char l)).takeWhile (fun c => !(c == '\n'))).length := by
    calc (((graphemeClusters (b.visible_line_content l)).take c).map List.length).sum
        ≤ ((graphemeClusters (b.visible_line_content l)).map List.length).sum :=
          sum_take_clusters_le _ c
      _ = (b.visible_line_content l).length := graphemeClusters_sum_length _
      _ ≤ _ := by
          unfold Buffer.visible_line_content
          exact dropTrailingBreaks_length_le _
  have hline : b.char_to_line (b.grapheme_col_to_offset l c) = l := by
    unfold Buffer.char_to_line Buffer.grapheme_col_to_offset
    rw [List.take_add, countNl_append]
    have h1 : countNl (b.content.take (b.line_to_char l)) = l := by
      unfold Buffer.line_to_char
      rw [countNl_take_lineStart, Nat.min_eq_left hlcount]
    have h2 : countNl ((b.content.drop (b.line_to_char l)).take
        ((((graphemeClusters (b.visible_line_content l)).take c).map List.length).sum)) = 0 := by
      rw [take_eq_of_isPrefix (List.takeWhile_prefix _) hS_le]
      rw [countNl, List.countP_eq_zero]
      intro a ha
      have := mem_takeWhile_ne_nl (List.mem_of_mem_take ha)
      simpa using this
    rw [h1, h2]
    omega
  refine ⟨hline, ?_⟩

  intro hall
  rw [hline]
  have hSc : (((graphemeClusters (b.visible_line_content l)).take c).map List.length).sum = c := by
    rw [sum_map_length_of_all_one hall, List.length_take]
    exact Nat.min_eq_left hc
  unfold Buffer.grapheme_col_to_offset
  rw [hSc]
  omega

/-- C4 witness: `(line, col) = (0, 2)` on the buffer `"ab\ncd"`
round-trips. -/
theorem round_trip_line_col_witness :
    (0 < Buffer.len_lines ⟨['a', 'b', '\n', 'c', 'd'], "t"⟩) ∧
    (2 ≤ Buffer.grapheme_len ⟨['a', 'b', '\n', 'c', 'd'], "t"⟩ 0) ∧
    Buffer.char_to_line ⟨['a', 'b', '\n', 'c', 'd'], "t"⟩
      (Buffer.grapheme_col_to_offset ⟨['a', 'b', '\n', 'c', 'd'], "t"⟩ 0 2) = 0 ∧
    Buffer.grapheme_col_to_offset ⟨['a', 'b', '\n', 'c', 'd'], "t"⟩ 0 2 -
      Buffer.line_to_char ⟨['a', 'b', '\n', 'c', 'd'], "t"⟩
        (Buffer.char_to_line ⟨['a', 'b', '\n', 'c', 'd'], "t"⟩
          (Buffer.grapheme_col_to_offset ⟨['a', 'b', '\n', 'c', 'd'], "t"⟩ 0 2)) = 2 :=
  ⟨by decide, by decide,
   (round_trip_line_col ⟨['a', 'b', '\n', 'c', 'd'], "t"⟩ 0 2 (by decide) (by decide)).1,
   (round_trip_line_col ⟨['a', 'b', '\n', 'c', 'd'], "t"⟩ 0 2 (by decide) (by decide)).2
     (by decide)⟩

/-! ### Helper lemmas for the backspace analysis (C5) -/

theorem getD_drop' (l : List Char) (n m : Nat) (d : Char) :
    (l.drop n).getD m d = l.getD (n + m) d := by
  simp [List.getD_eq_getElem?_getD, List.getElem?_drop]

theorem getD_take' {l : List Char} {n m : Nat} (h : m < n) (d : Char) :
    (l.take n).getD m d = l.getD m d := by
  simp [List.getD_eq_getElem?_getD, List.getElem?_take, h]

theorem getLast?_of_length {xs : List Char} (h : 0 < xs.length) (d : Char) :
    xs.getLast? = some (xs.getD (xs.length - 1) d) := by
  cases hx : xs with
  | nil => subst hx; simp at h
  | cons a t =>
    subst hx
    rw [List.getLast?_eq_getLast _ (by simp), List.getLast_eq_get]
    rw [List.getD_eq_getElem?_getD]
    rw [List.getElem?_eq_getElem (by omega)]
    rfl

theorem take_succ_getD {cs : List Char} {j : Nat} (h : j < cs.length) (d : Char) :
    cs.take (j + 1) = cs.take j ++ [cs.getD j d] := by
  rw [List.take_succ]
  congr 1
  rw [List.getElem?_eq_getElem h]
  rw [List.getD_eq_getElem?_getD, List.getElem?_eq_getElem h]
  rfl

theorem takeWhile_eq_take_of_nl : ∀ (xs : List Char) (m : Nat),
    (∀ j, j < m → xs.getD j ' ' ≠ '\n') → m < xs.length → xs.getD m ' ' = '\n' →
    xs.takeWhile (fun c => !(c == '\n')) = xs.take m := by
  intro xs
  induction xs with
  | nil => intro m _ hm _; simp at hm
  | cons x rest ih =>
    intro m hno hm hnl
    cases m with
    | zero =>
      rw [List.getD_cons_zero] at hnl
      subst hnl
      simp [List.takeWhile_cons]
    | succ m' =>
      have hx : x ≠ '\n' := by
        have := hno 0 (Nat.succ_pos m')
        rwa [List.getD_cons_zero] at this
      rw [List.getD_cons_succ] at hnl
      rw [List.take_succ_cons, List.takeWhile_cons, if_pos (by simp [hx])]
      rw [ih m' (fun j hj => by
          have := hno (j + 1) (by omega)
          rwa [List.getD_cons_succ] at this)
        (by simpa using hm) hnl]

theorem takeWhile_append_all (p : Char → Bool) :
    ∀ (X Y : List Char), (∀ x ∈ X, p x = true) →
      (X ++ Y).takeWhile p = X ++ Y.takeWhile p := by
  intro X
  induction X with
  | nil => intro Y _; simp
  | cons a t ih =>
    intro Y h
    rw [List.cons_append, List.takeWhile_cons, if_pos (h a (List.mem_cons_self a t))]
    rw [ih Y (fun x hx => h x (List.mem_cons_of_mem _ hx)), List.cons_append]

theorem dropWhile_append_keep (p : Char → Bool) :
    ∀ (A B : List Char), (∀ x ∈ B.head?, p x = false) →
      (A ++ B).dropWhile p = A.dropWhile p ++ B := by
  intro A
  induction A with
  | nil =>
    intro B h
    cases B with
    | nil => simp
    | cons b t =>
      have hb : p b = false := h b rfl
      simp [List.dropWhile_cons, hb]
  | cons a t ih =>
    intro B h
    rw [List.cons_append, List.dropWhile_cons, List.dropWhile_cons]
    by_cases hp : p a = true
    · rw [if_pos hp, if_pos hp]
      exact ih B h
    · rw [if_neg hp, if_neg hp, List.cons_append]

theorem dropTrailingBreaks_append {X W : List Char}
    (h : ∀ x ∈ X.getLast?, (x = '\r' ∨ x = '\n') → False) :
    dropTrailingBreaks (X ++ W) = X ++ dropTrailingBreaks W := by
  unfold dropTrailingBreaks
  rw [List.reverse_append]
  rw [dropWhile_append_keep _ _ _ (by
    intro x hx
    rw [List.head?_reverse] at hx
    have := h x hx
    rw [Bool.or_eq_false_iff]
    constructor <;> [skip; skip] <;> rw [beq_eq_false_iff_ne] <;> intro hcon <;>
      exact this (by simp [hcon]))]
  rw [List.reverse_append, List.reverse_reverse]

theorem dropTrailingBreaks_eq_self {X : List Char}
    (h : ∀ x ∈ X.getLast?, (x = '\r' ∨ x = '\n') → False) :
    dropTrailingBreaks X = X := by
  have h2 := @dropTrailingBreaks_append X [] h
  rw [List.append_nil] at h2
  rw [h2, show dropTrailingBreaks [] = ([] : List Char) from rfl, List.append_nil]

theorem dropTrailingBreaks_prefix (xs : List Char) : dropTrailingBreaks xs <+: xs := by
  unfold dropTrailingBreaks
  have hsuf : (xs.reverse.dropWhile (fun c => c == '\r' || c == '\n')) <:+ xs.reverse :=
    List.dropWhile_suffix _
  obtain ⟨t, ht⟩ := hsuf
  refine ⟨t.reverse, ?_⟩
  have := congrArg List.reverse ht
  rw [List.reverse_append, List.reverse_reverse] at this
  exact this

theorem graphemeBreak_to_nl {a : Char} (ha : a ≠ '\r') : graphemeBreak a '\n' = true := by
  unfold graphemeBreak
  rw [if_neg (by simp [ha])]
  by_cases h2 : a = '\n' ∨ a = '\r'
  · rw [if_pos h2]
  · rw [if_neg h2]
    rfl

theorem graphemeBreak_of_sep {a e : Char} (ha1 : a ≠ '\r') (ha2 : a ≠ '\n')
    (he : isCombiningChar e = false) : graphemeBreak a e = true := by
  unfold graphemeBreak
  rw [if_neg (by simp [ha1])]
  rw [if_neg (by simp [ha1, ha2])]
  rw [he]
  rfl

theorem update_single_skip (b : Buffer) (m : Nat) (d : Int) (c : Cursor) :
    update_cursors_after_modification b m d 0 0 [c] = some [c] := by
  unfold update_cursors_after_modification
  rw [if_pos rfl]
  rfl

/-! ### C5 -/

/-- C5 (counterexample): in the buffer whose first line is `e` plus the
combining accent U+0301 and whose second line is `x`, backspace at column 0
of line 1 faults: the merged column is computed as a char distance (2),
which fails the `validate_position` assertion against the grapheme-based
`grapheme_col_to_offset` (the claimed "previous line's grapheme length"
would be 1). -/
theorem backspace_col0_combining_cex :
    Buffer.backspace ⟨['e', Char.ofNat 0x301, '\n', 'x'], "t"⟩
      ⟨[⟨⟨1, 0, 3⟩, ⟨1, 0, 3⟩, none⟩], 0⟩ = none := by
  decide

/-- C5 (amended): backspace at column 0 of a non-first line `l` removes the
newline terminating line `l - 1` and puts the (single) cursor at the end of
the merged previous line with column equal to that line's original grapheme
length — provided the newline is a bare `'\n'` (no `'\r'` directly before
it), every grapheme cluster of the previous visible line is a single
character, and the character after the cursor does not fuse with the
previous line across the join (it is not a combining mark). -/
theorem backspace_col0_merges_lines (b : Buffer) (cur : Cursor) (l ofs : Nat)
    (hofs : ofs = b.line_to_char l)
    (hl1 : 1 ≤ l) (hl2 : l < b.len_lines)
    (hcur : cur.active = ⟨l, 0, ofs⟩)
    (hbare : ofs = 1 ∨ b.content.getD (ofs - 2) ' ' ≠ '\r')
    (hsingle : ∀ cl ∈ graphemeClusters (b.visible_line_content (l - 1)), cl.length = 1)
    (hfuse : ofs = b.len_chars ∨ isCombiningChar (b.content.getD ofs ' ') = false) :
    b.content.getD (ofs - 1) ' ' = '\n' ∧
    b.backspace ⟨[cur], 0⟩ = some
      (⟨b.content.take (ofs - 1) ++ b.content.drop ofs, b.name⟩,
       ⟨[⟨⟨l - 1, b.grapheme_len (l - 1), ofs - 1⟩, ⟨l - 1, b.grapheme_len (l - 1), ofs - 1⟩,
          some (b.grapheme_len (l - 1))⟩], 0⟩) := by
  have h_count : l ≤ countNl b.content := by
    have hx : b.len_lines = countNl b.content + 1 := rfl
    omega
  have hll : l - 1 + 1 = l := by omega
  have hld := lineStart_getD b.content (l - 1) (by rw [hll]; exact h_count)
  rw [hll] at hld
  have hofs' : lineStartIdx b.content l = ofs := hofs.symm
  rw [hofs'] at hld
  have hnl : b.content.getD (ofs - 1) ' ' = '\n' := hld.1
  have hofs1 : 1 ≤ ofs := hld.2
  have hofs_len : ofs ≤ b.content.length := by
    rw [← hofs']
    exact lineStartIdx_le_length _ _
  have hcnt_ofs : countNl (b.content.take ofs) = l := by
    rw [← hofs', countNl_take_lineStart, Nat.min_eq_left h_count]
  have hcnt_ofs1 : countNl (b.content.take (ofs - 1)) = l - 1 := by
    have hlt : ofs - 1 < b.content.length := by omega
    have hsucc := countNl_take_succ b.content (ofs - 1) hlt
    rw [show ofs - 1 + 1 = ofs by omega, hnl, if_pos rfl] at hsucc
    omega
  have hlm1 : l - 1 ≤ countNl b.content := by omega
  have hs0cnt : countNl (b.content.take (lineStartIdx b.content (l - 1))) = l - 1 := by
    rw [countNl_take_lineStart, Nat.min_eq_left hlm1]
  have hs0_le : lineStartIdx b.content (l - 1) ≤ ofs - 1 := by
    by_contra hcon
    push_neg at hcon
    have hmono := @countNl_take_mono b.content ofs (lineStartIdx b.content (l - 1)) (by omega)
    omega
  have hs0_len : lineStartIdx b.content (l - 1) ≤ b.content.length :=
    lineStartIdx_le_length _ _
  have hreg : ∀ j, lineStartIdx b.content (l - 1) ≤ j → j < ofs - 1 →
      b.content.getD j ' ' ≠ '\n' := by
    intro j hj1 hj2 hcc
    have hjlen : j < b.content.length := by omega
    have hlow := @countNl_take_mono b.content (lineStartIdx b.content (l - 1)) j hj1
    have hup := @countNl_take_mono b.content (j + 1) (ofs - 1) (by omega)
    have hsucc := countNl_take_succ b.content j hjlen
    rw [hcc, if_pos rfl] at hsucc
    omega
  have hklen : ((b.content.drop (lineStartIdx b.content (l - 1))).take
      (ofs - 1 - lineStartIdx b.content (l - 1))).length =
      ofs - 1 - lineStartIdx b.content (l - 1) := by
    rw [List.length_take, List.length_drop]
    omega
  have htw : (b.content.drop (lineStartIdx b.content (l - 1))).takeWhile
        (fun c => !(c == '\n')) =
      (b.content.drop (lineStartIdx b.content (l - 1))).take
        (ofs - 1 - lineStartIdx b.content (l - 1)) := by
    apply takeWhile_eq_take_of_nl
    · intro j hj
      rw [getD_drop']
      exact hreg _ (by omega) (by omega)
    · rw [List.length_drop]
      omega
    · rw [getD_drop', show lineStartIdx b.content (l - 1) +
        (ofs - 1 - lineStartIdx b.content (l - 1)) = ofs - 1 by omega]
      exact hnl
  have hraw_pred : ∀ x ∈ (b.content.drop (lineStartIdx b.content (l - 1))).take
      (ofs - 1 - lineStartIdx b.content (l - 1)), (!(x == '\n')) = true := by
    intro x hx
    rw [← htw] at hx
    have h := List.mem_takeWhile_imp hx
    exact h
  have hraw_last : ∀ x ∈ ((b.content.drop (lineStartIdx b.content (l - 1))).take
      (ofs - 1 - lineStartIdx b.content (l - 1))).getLast?,
      x = b.content.getD (ofs - 2) ' ' := by
    intro x hx
    have hne : (b.content.drop (lineStartIdx b.content (l - 1))).take
        (ofs - 1 - lineStartIdx b.content (l - 1)) ≠ [] := by
      intro hcon
      rw [hcon] at hx
      simp at hx
    have hpos := List.length_pos.mpr hne
    have hkpos : 0 < ofs - 1 - lineStartIdx b.content (l - 1) := by
      rw [hklen] at hpos
      exact hpos
    rw [Option.mem_def, getLast?_of_length hpos ' '] at hx
    have hx3 := Option.some.inj hx
    rw [hklen] at hx3
    rw [getD_take' (show ofs - 1 - lineStartIdx b.content (l - 1) - 1 <
      ofs - 1 - lineStartIdx b.content (l - 1) by omega) ' ', getD_drop'] at hx3
    rw [show lineStartIdx b.content (l - 1) +
      (ofs - 1 - lineStartIdx b.content (l - 1) - 1) = ofs - 2 by omega] at hx3
    exact hx3.symm
  have hlast_cond : ∀ x ∈ ((b.content.drop (lineStartIdx b.content (l - 1))).take
      (ofs - 1 - lineStartIdx b.content (l - 1))).getLast?,
      (x = '\r' ∨ x = '\n') → False := by
    intro x hx hor
    have hxe := hraw_last x hx
    have hne : (b.content.drop (lineStartIdx b.content (l - 1))).take
        (ofs - 1 - lineStartIdx b.content (l - 1)) ≠ [] := by
      intro hcon
      rw [hcon] at hx
      simp at hx
    have hkpos : 0 < ofs - 1 - lineStartIdx b.content (l - 1) := by
      have := List.length_pos.mpr hne
      rw [hklen] at this
      exact this
    rcases hor with h | h
    · rcases hbare with hb1 | hb2
      · omega
      · exact hb2 (by rw [← hxe, h])
    · exact hreg (ofs - 2) (by omega) (by omega) (by rw [← hxe, h])
  have hvisible : b.visible_line_content (l - 1) =
      (b.content.drop (lineStartIdx b.content (l - 1))).take
        (ofs - 1 - lineStartIdx b.content (l - 1)) := by
    unfold Buffer.visible_line_content
    rw [show b.line_to_char (l - 1) = lineStartIdx b.content (l - 1) from rfl]
    rw [htw]
    exact dropTrailingBreaks_eq_self hlast_cond
  rw [hvisible] at hsingle
  have hcount : (graphemeClusters ((b.content.drop (lineStartIdx b.content (l - 1))).take
      (ofs - 1 - lineStartIdx b.content (l - 1)))).length =
      ofs - 1 - lineStartIdx b.content (l - 1) := by
    have h1 := sum_map_length_of_all_one hsingle
    have h2 := graphemeClusters_sum_length ((b.content.drop (lineStartIdx b.content (l - 1))).take
      (ofs - 1 - lineStartIdx b.content (l - 1)))
    rw [hklen] at h2
    omega
  have hglen : b.grapheme_len (l - 1) = ofs - 1 - lineStartIdx b.content (l - 1) := by
    unfold Buffer.grapheme_len
    rw [hvisible]
    exact hcount
  have hc2l : Buffer.char_to_line ⟨b.content.take (ofs - 1) ++ b.content.drop ofs, b.name⟩
      (ofs - 1) = l - 1 := by
    unfold Buffer.char_to_line
    rw [show (⟨b.content.take (ofs - 1) ++ b.content.drop ofs, b.name⟩ : Buffer).content =
      b.content.take (ofs - 1) ++ b.content.drop ofs from rfl]
    rw [List.take_left' (by rw [List.length_take]; omega)]
    exact hcnt_ofs1
  have hl2c' : Buffer.line_to_char ⟨b.content.take (ofs - 1) ++ b.content.drop ofs, b.name⟩
      (l - 1) = lineStartIdx b.content (l - 1) := by
    unfold Buffer.line_to_char
    rw [show (⟨b.content.take (ofs - 1) ++ b.content.drop ofs, b.name⟩ : Buffer).content =
      b.content.take (ofs - 1) ++ b.content.drop ofs from rfl]
    rw [lineStartIdx_append _ _ _ (le_of_eq hcnt_ofs1.symm)]
    have h2 : lineStartIdx b.content (l - 1) =
        lineStartIdx (b.content.take (ofs - 1) ++ b.content.drop (ofs - 1)) (l - 1) := by
      rw [List.take_append_drop]
    rw [lineStartIdx_append _ _ _ (le_of_eq hcnt_ofs1.symm)] at h2
    exact h2.symm
  have hvis' : Buffer.visible_line_content
      ⟨b.content.take (ofs - 1) ++ b.content.drop ofs, b.name⟩ (l - 1) =
      (b.content.drop (lineStartIdx b.content (l - 1))).take
        (ofs - 1 - lineStartIdx b.content (l - 1)) ++
      dropTrailingBreaks ((b.content.drop ofs).takeWhile (fun c => !(c == '\n'))) := by
    unfold Buffer.visible_line_content
    rw [hl2c']
    rw [show (⟨b.content.take (ofs - 1) ++ b.content.drop ofs, b.name⟩ : Buffer).content =
      b.content.take (ofs - 1) ++ b.content.drop ofs from rfl]
    rw [List.drop_append_eq_append_drop]
    rw [show lineStartIdx b.content (l - 1) - (b.content.take (ofs - 1)).length = 0 by
      rw [List.length_take]; omega]
    rw [List.drop_zero]
    rw [List.drop_take (ofs - 1) (lineStartIdx b.content (l - 1)) b.content]
    rw [takeWhile_append_all _ _ _ hraw_pred]
    exact dropTrailingBreaks_append hlast_cond
  have hsplit : graphemeClusters
        ((b.content.drop (lineStartIdx b.content (l - 1))).take
          (ofs - 1 - lineStartIdx b.content (l - 1)) ++
         dropTrailingBreaks ((b.content.drop ofs).takeWhile (fun c => !(c == '\n')))) =
      graphemeClusters ((b.content.drop (lineStartIdx b.content (l - 1))).take
        (ofs - 1 - lineStartIdx b.content (l - 1))) ++
      graphemeClusters (dropTrailingBreaks
        ((b.content.drop ofs).takeWhile (fun c => !(c == '\n')))) := by
    by_cases hrv : (b.content.drop (lineStartIdx b.content (l - 1))).take
        (ofs - 1 - lineStartIdx b.content (l - 1)) = []
    · rw [hrv, List.nil_append, show graphemeClusters ([] : List Char) = [] from rfl,
        List.nil_append]
    · by_cases hw : dropTrailingBreaks ((b.content.drop ofs).takeWhile
          (fun c => !(c == '\n'))) = []
      · rw [hw, List.append_nil, show graphemeClusters ([] : List Char) = [] from rfl,
          List.append_nil]
      · have hWne : (b.content.drop ofs).takeWhile (fun c => !(c == '\n')) ≠ [] := by
          intro hcon
          rw [hcon] at hw
          exact hw rfl
        have hdropne : b.content.drop ofs ≠ [] := by
          intro hcon
          rw [hcon] at hWne
          exact hWne rfl
        have hofslt : ofs < b.content.length := by
          by_contra hcc
          push_neg at hcc
          exact hdropne (List.drop_eq_nil_of_le hcc)
        obtain ⟨e, es, hd⟩ : ∃ e es, b.content.drop ofs = e :: es := by
          cases hq : b.content.drop ofs with
          | nil => exact absurd hq hdropne
          | cons x xs => exact ⟨x, xs, rfl⟩
        have he_val : e = b.content.getD ofs ' ' := by
          have hgd := getD_drop' b.content ofs 0 ' '
          rw [hd, List.getD_cons_zero, Nat.add_zero] at hgd
          exact hgd
        have hWhead : ((b.content.drop ofs).takeWhile (fun c => !(c == '\n'))).head? =
            some e := by
          rw [hd, List.takeWhile_cons]
          by_cases hpe : (!(e == '\n')) = true
          · rw [if_pos hpe]
            rfl
          · exfalso
            apply hWne
            rw [hd, List.takeWhile_cons, if_neg hpe]
        have hW'head : (dropTrailingBreaks ((b.content.drop ofs).takeWhile
            (fun c => !(c == '\n')))).head? = some e := by
          obtain ⟨t, ht⟩ := dropTrailingBreaks_prefix
            ((b.content.drop ofs).takeWhile (fun c => !(c == '\n')))
          rw [← ht] at hWhead
          rw [List.head?_append_of_ne_nil _ hw] at hWhead
          exact hWhead
        have hcomb : isCombiningChar (b.content.getD ofs ' ') = false := by
          rcases hfuse with h1 | h2
          · exfalso
            have : b.len_chars = b.content.length := rfl
            omega
          · exact h2
        refine graphemeClusters_append hrv hw ?_
        intro a ha bb hbb
        have hae := hraw_last a ha
        rw [hW'head] at hbb
        simp at hbb
        subst hbb
        subst hae
        rw [he_val]
        apply graphemeBreak_of_sep
        · rcases hbare with h1 | h2
          · exfalso
            have hkpos : 0 < ofs - 1 - lineStartIdx b.content (l - 1) := by
              have := List.length_pos.mpr hrv
              rw [hklen] at this
              exact this
            omega
          · exact h2
        · have hkpos : 0 < ofs - 1 - lineStartIdx b.content (l - 1) := by
            have := List.length_pos.mpr hrv
            rw [hklen] at this
            exact this
          exact hreg (ofs - 2) (by omega) (by omega)
        · exact hcomb
  have hgcto' : Buffer.grapheme_col_to_offset
      ⟨b.content.take (ofs - 1) ++ b.content.drop ofs, b.name⟩ (l - 1)
      (ofs - 1 - lineStartIdx b.content (l - 1)) = ofs - 1 := by
    unfold Buffer.grapheme_col_to_offset
    rw [hl2c', hvis', hsplit]
    rw [List.take_left' hcount]
    rw [graphemeClusters_sum_length, hklen]
    omega
  have hvalid' : Buffer.validate_position
      ⟨b.content.take (ofs - 1) ++ b.content.drop ofs, b.name⟩
      ⟨l - 1, ofs - 1 - lineStartIdx b.content (l - 1), ofs - 1⟩ = true := by
    rw [Buffer.validate_position_iff]
    refine ⟨?_, ?_, ?_, ?_⟩
    · show l - 1 < countNl (b.content.take (ofs - 1) ++ b.content.drop ofs) + 1
      rw [countNl_append, hcnt_ofs1]
      omega
    · show ofs - 1 ≤ (b.content.take (ofs - 1) ++ b.content.drop ofs).length
      rw [List.length_append, List.length_take]
      omega
    · show ofs - 1 - lineStartIdx b.content (l - 1) ≤ Buffer.grapheme_len
        ⟨b.content.take (ofs - 1) ++ b.content.drop ofs, b.name⟩ (l - 1)
      unfold Buffer.grapheme_len
      rw [hvis', hsplit, List.length_append, hcount]
      omega
    · exact hgcto'.symm
  have htake_split : b.content.take ofs = b.content.take (ofs - 1) ++ ['\n'] := by
    have hts := take_succ_getD (show ofs - 1 < b.content.length by omega) ' '
    rw [show ofs - 1 + 1 = ofs by omega, hnl] at hts
    exact hts
  have hprev : b.prev_grapheme_offset ofs = ofs - 1 := by
    unfold Buffer.prev_grapheme_offset
    rw [if_neg (by omega)]
    rw [htake_split]
    cases hX : b.content.take (ofs - 1) with
    | nil =>
      have hz : ofs - 1 = 0 := by
        have hxl := congrArg List.length hX
        rw [List.length_take] at hxl
        simp only [List.length_nil] at hxl
        omega
      rw [hz]
      rfl
    | cons x xs =>
      have hlenX : xs.length + 1 = ofs - 1 := by
        have hxl := congrArg List.length hX
        rw [List.length_take] at hxl
        simp only [List.length_cons] at hxl
        omega
      have hXlast : (x :: xs).getLast? = some (b.content.getD (ofs - 2) ' ') := by
        rw [← hX]
        have hlen : (b.content.take (ofs - 1)).length = ofs - 1 := by
          rw [List.length_take]
          omega
        have hpos : 0 < (b.content.take (ofs - 1)).length := by
          rw [hlen]
          omega
        rw [getLast?_of_length hpos ' ', hlen,
          getD_take' (show ofs - 1 - 1 < ofs - 1 by omega) ' ',
          show ofs - 1 - 1 = ofs - 2 by omega]
      have hbrk : ∀ a ∈ (x :: xs).getLast?, ∀ bb ∈ (['\n'] : List Char).head?,
          graphemeBreak a bb = true := by
        intro a ha bb hbb
        rw [hXlast, Option.mem_some_iff] at ha
        subst ha
        simp at hbb
        subst hbb
        apply graphemeBreak_to_nl
        rcases hbare with h1 | h2
        · omega
        · exact h2
      rw [graphemeClusters_append (List.cons_ne_nil x xs) (List.cons_ne_nil '\n' []) hbrk]
      rw [show graphemeClusters ['\n'] = [['\n']] from rfl]
      rw [List.getLastD_concat]
      rw [List.length_append, List.length_cons]
      simp
      omega
  have hstep : backspaceStep b ⟨[cur], 0⟩ 0 = some
      (⟨b.content.take (ofs - 1) ++ b.content.drop ofs, b.name⟩,
       ⟨[⟨⟨l - 1, ofs - 1 - lineStartIdx b.content (l - 1), ofs - 1⟩,
          ⟨l - 1, ofs - 1 - lineStartIdx b.content (l - 1), ofs - 1⟩,
          some (ofs - 1 - lineStartIdx b.content (l - 1))⟩], 0⟩) := by
    have hat : (⟨[cur], 0⟩ : MultiCursor).cursorAt 0 = cur := rfl
    unfold backspaceStep
    rw [hat, hcur]
    dsimp only [List.set]
    rw [if_neg (show ¬ (ofs = 0) by omega)]
    rw [if_neg (show ¬ (b.len_chars < ofs) from Nat.not_lt.mpr hofs_len)]
    rw [hprev, hc2l, hl2c']
    rw [if_neg (show ¬ (Buffer.validate_position
        ⟨b.content.take (ofs - 1) ++ b.content.drop ofs, b.name⟩
        ⟨l - 1, ofs - 1 - lineStartIdx b.content (l - 1), ofs - 1⟩ = false) by
      simp [hvalid'])]
    rw [Cursor.move_to_of_valid cur ⟨none, true⟩ hvalid']
    dsimp only [List.set]
    rw [update_single_skip]
    rfl
  have hsi : sortedIndices ⟨[cur], 0⟩ false = [0] := rfl
  have hfold : foldSteps backspaceStep b ⟨[cur], 0⟩ [0] = some
      (⟨b.content.take (ofs - 1) ++ b.content.drop ofs, b.name⟩,
       ⟨[⟨⟨l - 1, ofs - 1 - lineStartIdx b.content (l - 1), ofs - 1⟩,
          ⟨l - 1, ofs - 1 - lineStartIdx b.content (l - 1), ofs - 1⟩,
          some (ofs - 1 - lineStartIdx b.content (l - 1))⟩], 0⟩) := by
    rw [foldSteps, hstep]
    rfl
  have hrl : refreshList ⟨b.content.take (ofs - 1) ++ b.content.drop ofs, b.name⟩
      [⟨⟨l - 1, ofs - 1 - lineStartIdx b.content (l - 1), ofs - 1⟩,
        ⟨l - 1, ofs - 1 - lineStartIdx b.content (l - 1), ofs - 1⟩,
        some (ofs - 1 - lineStartIdx b.content (l - 1))⟩] = some
      [⟨⟨l - 1, ofs - 1 - lineStartIdx b.content (l - 1), ofs - 1⟩,
        ⟨l - 1, ofs - 1 - lineStartIdx b.content (l - 1), ofs - 1⟩,
        some (ofs - 1 - lineStartIdx b.content (l - 1))⟩] := by
    unfold refreshList
    rw [@refreshOne_noop ⟨b.content.take (ofs - 1) ++ b.content.drop ofs, b.name⟩
      ⟨⟨l - 1, ofs - 1 - lineStartIdx b.content (l - 1), ofs - 1⟩,
       ⟨l - 1, ofs - 1 - lineStartIdx b.content (l - 1), ofs - 1⟩,
       some (ofs - 1 - lineStartIdx b.content (l - 1))⟩ hvalid']
    rfl
  refine ⟨hnl, ?_⟩
  unfold Buffer.backspace
  rw [hsi, hfold]
  dsimp only
  unfold MultiCursor.refresh_positions
  dsimp only
  rw [hrl]
  rw [hglen]
  rfl

theorem backspace_col0_merges_lines_witness :
    (3 : Nat) = (⟨['a', 'b', '\n', 'c', 'd'], "t"⟩ : Buffer).line_to_char 1 ∧
    (⟨['a', 'b', '\n', 'c', 'd'], "t"⟩ : Buffer).backspace
      ⟨[⟨⟨1, 0, 3⟩, ⟨1, 0, 3⟩, none⟩], 0⟩ = some
      (⟨['a', 'b', 'c', 'd'], "t"⟩, ⟨[⟨⟨0, 2, 2⟩, ⟨0, 2, 2⟩, some 2⟩], 0⟩) := by
  have h := backspace_col0_merges_lines ⟨['a', 'b', '\n', 'c', 'd'], "t"⟩
    ⟨⟨1, 0, 3⟩, ⟨1, 0, 3⟩, none⟩ 1 3 (by decide) (by decide) (by decide) rfl
    (by decide) (by decide) (by decide)
  exact ⟨by decide, h.2⟩
